import Mathlib

/-!
Verification of the VQA soft-accuracy scorer
(`src/Experiments/vqa-soft-accuracy.py`).

The Python code is shallowly embedded over `List Char` / `String`:

* Python `str.replace(old, new)` for a one-character `old` is `pyReplaceCh`;
* the substring test `pat in s` for the two-character patterns used by the
  code is `hasPair`;
* the regex `_COMMA_STRIP` = digit, comma, digit is `hasDigitCommaDigit`
  (the regex class `\d` is modelled as the ASCII digits, which is exact for
  the ASCII answer strings the tool processes);
* the regex `_PERIOD_STRIP` is `(?!<=\d)(\.)(?!\d)`; the first group is a
  negative lookahead for the literal text `<=` followed by a digit, which can
  never fire at a position holding a period, so the compiled pattern matches
  exactly the periods not immediately followed by a digit.  The call
  `_PERIOD_STRIP.sub("", out_text, re.UNICODE)` passes `re.UNICODE` (= 32) as
  the positional `count` argument of `re.sub`, so only the first 32 matches
  are removed; `periodStripAux` carries that budget;
* Python `str.lower` / `str.split` / `str.strip` are modelled on their exact
  ASCII behaviour (`lowerChar`, `pySplit`, `stripWs`);
* Python float arithmetic is modelled with `ℚ`.
-/

set_option maxHeartbeats 1600000
set_option maxRecDepth 100000

section

attribute [local semireducible] Rat.mul Rat.inv Rat.add Rat.sub

/-- The apostrophe character (written via its code point). -/
def apos : Char := Char.ofNat 39

/-- ASCII whitespace, as recognised by Python `str.split` and `str.strip`. -/
def isWs (c : Char) : Bool :=
  c = ' ' || c = '\t' || c = '\n' || c = '\r' || c = Char.ofNat 11 || c = Char.ofNat 12

/-- One character of the preclean step: newline and tab become a space. -/
def nlChar (c : Char) : Char :=
  if c = '\n' || c = '\t' then ' ' else c

/-- Python `str.strip`: drop leading and trailing whitespace. -/
def stripWs (l : List Char) : List Char :=
  ((l.dropWhile (fun c => isWs c)).reverse.dropWhile (fun c => isWs c)).reverse

/-- `_preclean`: replace newline and tab by a space, then strip. -/
def precleanL (l : List Char) : List Char :=
  stripWs (l.map nlChar)

/-- Association-list lookup (the model of a Python dict with unique keys). -/
def lookupL {α β : Type} [DecidableEq α] (w : α) : List (α × β) → Option β
  | [] => none
  | kv :: rest => if kv.1 = w then some kv.2 else lookupL w rest

/-- The 26 uppercase/lowercase ASCII letter pairs, driving `lowerChar`. -/
def lowerPairs : List (Char × Char) :=
  [('A', 'a'), ('B', 'b'), ('C', 'c'), ('D', 'd'), ('E', 'e'), ('F', 'f'),
   ('G', 'g'), ('H', 'h'), ('I', 'i'), ('J', 'j'), ('K', 'k'), ('L', 'l'),
   ('M', 'm'), ('N', 'n'), ('O', 'o'), ('P', 'p'), ('Q', 'q'), ('R', 'r'),
   ('S', 's'), ('T', 't'), ('U', 'u'), ('V', 'v'), ('W', 'w'), ('X', 'x'),
   ('Y', 'y'), ('Z', 'z')]

/-- Python `str.lower`, one ASCII character at a time. -/
def lowerChar (c : Char) : Char :=
  (lookupL c lowerPairs).getD c

/-- `_PUNCT_LIST` from the source, in source order; the double quote, the
braces, the backslash and the backtick are written via their code points. -/
def punctList : List Char :=
  [';', '/', '[', ']', Char.ofNat 34, Char.ofNat 123, Char.ofNat 125, '(',
   ')', '=', '+', Char.ofNat 92, '_', '-', '>', '<', '@', Char.ofNat 96,
   ',', '?', '!']

/-- Whether the two-character pattern `a b` occurs in the list
(Python `(a + b) in s`). -/
def hasPair (a b : Char) : List Char → Bool
  | [] => false
  | [_] => false
  | c :: d :: rest => (c = a && d = b) || hasPair a b (d :: rest)

/-- Whether a digit, comma, digit substring occurs
(Python `re.search(_COMMA_STRIP, s) is not None`). -/
def hasDigitCommaDigit : List Char → Bool
  | c :: d :: e :: rest =>
      (c.isDigit && d = ',' && e.isDigit) || hasDigitCommaDigit (d :: e :: rest)
  | _ => false

/-- Python `str.replace` for a one-character pattern. -/
def pyReplaceCh (c : Char) (new : List Char) : List Char → List Char
  | [] => []
  | x :: rest =>
      if x = c then new ++ pyReplaceCh c new rest else x :: pyReplaceCh c new rest

/-- The per-mark condition of `_process_punctuation`, evaluated on the
original input string. -/
def punctCond (p : Char) (inText : List Char) : Bool :=
  (hasPair p ' ' inText || hasPair ' ' p inText) || hasDigitCommaDigit inText

/-- The `for p in _PUNCT_LIST` loop of `_process_punctuation`. -/
def punctLoop (inText : List Char) : List Char :=
  punctList.foldl
    (fun out p =>
      if punctCond p inText then pyReplaceCh p [] out else pyReplaceCh p [' '] out)
    inText

/-- Whether the list starts with an ASCII digit. -/
def headIsDigit : List Char → Bool
  | d :: _ => d.isDigit
  | [] => false

/-- `_PERIOD_STRIP.sub("", out_text, re.UNICODE)`: remove periods not
immediately followed by a digit, with a budget of `re.UNICODE` = 32
replacements (the flag is passed as the positional `count` argument). -/
def periodStripAux : Nat → List Char → List Char
  | _, [] => []
  | 0, l => l
  | Nat.succ k, c :: rest =>
      if c = '.' && !(headIsDigit rest) then periodStripAux k rest
      else c :: periodStripAux (Nat.succ k) rest

/-- `_process_punctuation`: the punctuation-mark loop, then the period strip. -/
def processPunctuation (l : List Char) : List Char :=
  periodStripAux 32 (punctLoop l)

/-- One step of the right fold implementing Python `str.split`. -/
def splitStep (c : Char) (acc : List (List Char)) : List (List Char) :=
  if isWs c then [] :: acc
  else
    match acc with
    | [] => [[c]]
    | w :: rest => (c :: w) :: rest

/-- Raw whitespace split, keeping empty pieces. -/
def rawSplit (l : List Char) : List (List Char) :=
  l.foldr splitStep []

/-- Python `str.split()` with no arguments: whitespace split, empty pieces
dropped. -/
def pySplit (l : List Char) : List (List Char) :=
  (rawSplit l).filter (fun w => !w.isEmpty)

/-- Python `" ".join`. -/
def joinSp : List (List Char) → List Char
  | [] => []
  | [w] => w
  | w :: ws => w ++ ' ' :: joinSp ws

/-- `_ARTICLES` from the source. -/
def articlesL : List (List Char) :=
  [['a'], ['a', 'n'], ['t', 'h', 'e']]
def contractionPairs : List (List Char × List Char) := [
  (['a', 'i', 'n', 't'], ['a', 'i', 'n', apos, 't']),
  (['a', 'r', 'e', 'n', 't'], ['a', 'r', 'e', 'n', apos, 't']),
  (['c', 'a', 'n', 't'], ['c', 'a', 'n', apos, 't']),
  (['c', 'o', 'u', 'l', 'd', 'v', 'e'], ['c', 'o', 'u', 'l', 'd', apos, 'v', 'e']),
  (['c', 'o', 'u', 'l', 'd', 'n', 't'], ['c', 'o', 'u', 'l', 'd', 'n', apos, 't']),
  (['c', 'o', 'u', 'l', 'd', 'n', apos, 't', 'v', 'e'], ['c', 'o', 'u', 'l', 'd', 'n', apos, 't', apos, 'v', 'e']),
  (['c', 'o', 'u', 'l', 'd', 'n', 't', apos, 'v', 'e'], ['c', 'o', 'u', 'l', 'd', 'n', apos, 't', apos, 'v', 'e']),
  (['d', 'i', 'd', 'n', 't'], ['d', 'i', 'd', 'n', apos, 't']),
  (['d', 'o', 'e', 's', 'n', 't'], ['d', 'o', 'e', 's', 'n', apos, 't']),
  (['d', 'o', 'n', 't'], ['d', 'o', 'n', apos, 't']),
  (['h', 'a', 'd', 'n', 't'], ['h', 'a', 'd', 'n', apos, 't']),
  (['h', 'a', 'd', 'n', 't', apos, 'v', 'e'], ['h', 'a', 'd', 'n', apos, 't', apos, 'v', 'e']),
  (['h', 'a', 'd', 'n', apos, 't', 'v', 'e'], ['h', 'a', 'd', 'n', apos, 't', apos, 'v', 'e']),
  (['h', 'a', 's', 'n', 't'], ['h', 'a', 's', 'n', apos, 't']),
  (['h', 'a', 'v', 'e', 'n', 't'], ['h', 'a', 'v', 'e', 'n', apos, 't']),
  (['h', 'e', 'd'], ['h', 'e', apos, 'd']),
  (['h', 'e', 'd', apos, 'v', 'e'], ['h', 'e', apos, 'd', apos, 'v', 'e']),
  (['h', 'e', apos, 'd', 'v', 'e'], ['h', 'e', apos, 'd', apos, 'v', 'e']),
  (['h', 'e', 's'], ['h', 'e', apos, 's']),
  (['h', 'o', 'w', 'd'], ['h', 'o', 'w', apos, 'd']),
  (['h', 'o', 'w', 'l', 'l'], ['h', 'o', 'w', apos, 'l', 'l']),
  (['h', 'o', 'w', 's'], ['h', 'o', 'w', apos, 's']),
  (['i', 'd', apos, 'v', 'e'], ['i', apos, 'd', apos, 'v', 'e']),
  (['i', apos, 'd', 'v', 'e'], ['i', apos, 'd', apos, 'v', 'e']),
  (['i', 'm'], ['i', apos, 'm']),
  (['i', 'v', 'e'], ['i', apos, 'v', 'e']),
  (['i', 's', 'n', 't'], ['i', 's', 'n', apos, 't']),
  (['i', 't', 'd'], ['i', 't', apos, 'd']),
  (['i', 't', 'd', apos, 'v', 'e'], ['i', 't', apos, 'd', apos, 'v', 'e']),
  (['i', 't', apos, 'd', 'v', 'e'], ['i', 't', apos, 'd', apos, 'v', 'e']),
  (['i', 't', 'l', 'l'], ['i', 't', apos, 'l', 'l']),
  (['l', 'e', 't', apos, 's'], ['l', 'e', 't', apos, 's']),
  (['m', 'a', 'a', 'm'], ['m', 'a', apos, 'a', 'm']),
  (['m', 'i', 'g', 'h', 't', 'n', 't'], ['m', 'i', 'g', 'h', 't', 'n', apos, 't']),
  (['m', 'i', 'g', 'h', 't', 'n', 't', apos, 'v', 'e'], ['m', 'i', 'g', 'h', 't', 'n', apos, 't', apos, 'v', 'e']),
  (['m', 'i', 'g', 'h', 't', 'n', apos, 't', 'v', 'e'], ['m', 'i', 'g', 'h', 't', 'n', apos, 't', apos, 'v', 'e']),
  (['m', 'i', 'g', 'h', 't', 'v', 'e'], ['m', 'i', 'g', 'h', 't', apos, 'v', 'e']),
  (['m', 'u', 's', 't', 'n', 't'], ['m', 'u', 's', 't', 'n', apos, 't']),
  (['m', 'u', 's', 't', 'v', 'e'], ['m', 'u', 's', 't', apos, 'v', 'e']),
  (['n', 'e', 'e', 'd', 'n', 't'], ['n', 'e', 'e', 'd', 'n', apos, 't']),
  (['n', 'o', 't', 'v', 'e'], ['n', 'o', 't', apos, 'v', 'e']),
  (['o', 'c', 'l', 'o', 'c', 'k'], ['o', apos, 'c', 'l', 'o', 'c', 'k']),
  (['o', 'u', 'g', 'h', 't', 'n', 't'], ['o', 'u', 'g', 'h', 't', 'n', apos, 't']),
  (['o', 'w', apos, 's', apos, 'a', 't'], [apos, 'o', 'w', apos, 's', apos, 'a', 't']),
  ([apos, 'o', 'w', 's', apos, 'a', 't'], [apos, 'o', 'w', apos, 's', apos, 'a', 't']),
  ([apos, 'o', 'w', apos, 's', 'a', 't'], [apos, 'o', 'w', apos, 's', apos, 'a', 't']),
  (['s', 'h', 'a', 'n', 't'], ['s', 'h', 'a', 'n', apos, 't']),
  (['s', 'h', 'e', 'd', apos, 'v', 'e'], ['s', 'h', 'e', apos, 'd', apos, 'v', 'e']),
  (['s', 'h', 'e', apos, 'd', 'v', 'e'], ['s', 'h', 'e', apos, 'd', apos, 'v', 'e']),
  (['s', 'h', 'e', apos, 's'], ['s', 'h', 'e', apos, 's']),
  (['s', 'h', 'o', 'u', 'l', 'd', 'v', 'e'], ['s', 'h', 'o', 'u', 'l', 'd', apos, 'v', 'e']),
  (['s', 'h', 'o', 'u', 'l', 'd', 'n', 't'], ['s', 'h', 'o', 'u', 'l', 'd', 'n', apos, 't']),
  (['s', 'h', 'o', 'u', 'l', 'd', 'n', 't', apos, 'v', 'e'], ['s', 'h', 'o', 'u', 'l', 'd', 'n', apos, 't', apos, 'v', 'e']),
  (['s', 'h', 'o', 'u', 'l', 'd', 'n', apos, 't', 'v', 'e'], ['s', 'h', 'o', 'u', 'l', 'd', 'n', apos, 't', apos, 'v', 'e']),
  (['s', 'o', 'm', 'e', 'b', 'o', 'd', 'y', apos, 'd'], ['s', 'o', 'm', 'e', 'b', 'o', 'd', 'y', 'd']),
  (['s', 'o', 'm', 'e', 'b', 'o', 'd', 'y', 'd', apos, 'v', 'e'], ['s', 'o', 'm', 'e', 'b', 'o', 'd', 'y', apos, 'd', apos, 'v', 'e']),
  (['s', 'o', 'm', 'e', 'b', 'o', 'd', 'y', apos, 'd', 'v', 'e'], ['s', 'o', 'm', 'e', 'b', 'o', 'd', 'y', apos, 'd', apos, 'v', 'e']),
  (['s', 'o', 'm', 'e', 'b', 'o', 'd', 'y', 'l', 'l'], ['s', 'o', 'm', 'e', 'b', 'o', 'd', 'y', apos, 'l', 'l']),
  (['s', 'o', 'm', 'e', 'b', 'o', 'd', 'y', 's'], ['s', 'o', 'm', 'e', 'b', 'o', 'd', 'y', apos, 's']),
  (['s', 'o', 'm', 'e', 'o', 'n', 'e', 'd'], ['s', 'o', 'm', 'e', 'o', 'n', 'e', apos, 'd']),
  (['s', 'o', 'm', 'e', 'o', 'n', 'e', 'd', apos, 'v', 'e'], ['s', 'o', 'm', 'e', 'o', 'n', 'e', apos, 'd', apos, 'v', 'e']),
  (['s', 'o', 'm', 'e', 'o', 'n', 'e', apos, 'd', 'v', 'e'], ['s', 'o', 'm', 'e', 'o', 'n', 'e', apos, 'd', apos, 'v', 'e']),
  (['s', 'o', 'm', 'e', 'o', 'n', 'e', 'l', 'l'], ['s', 'o', 'm', 'e', 'o', 'n', 'e', apos, 'l', 'l']),
  (['s', 'o', 'm', 'e', 'o', 'n', 'e', 's'], ['s', 'o', 'm', 'e', 'o', 'n', 'e', apos, 's']),
  (['s', 'o', 'm', 'e', 't', 'h', 'i', 'n', 'g', 'd'], ['s', 'o', 'm', 'e', 't', 'h', 'i', 'n', 'g', apos, 'd']),
  (['s', 'o', 'm', 'e', 't', 'h', 'i', 'n', 'g', 'd', apos, 'v', 'e'], ['s', 'o', 'm', 'e', 't', 'h', 'i', 'n', 'g', apos, 'd', apos, 'v', 'e']),
  (['s', 'o', 'm', 'e', 't', 'h', 'i', 'n', 'g', apos, 'd', 'v', 'e'], ['s', 'o', 'm', 'e', 't', 'h', 'i', 'n', 'g', apos, 'd', apos, 'v', 'e']),
  (['s', 'o', 'm', 'e', 't', 'h', 'i', 'n', 'g', 'l', 'l'], ['s', 'o', 'm', 'e', 't', 'h', 'i', 'n', 'g', apos, 'l', 'l']),
  (['t', 'h', 'a', 't', 's'], ['t', 'h', 'a', 't', apos, 's']),
  (['t', 'h', 'e', 'r', 'e', 'd'], ['t', 'h', 'e', 'r', 'e', apos, 'd']),
  (['t', 'h', 'e', 'r', 'e', 'd', apos, 'v', 'e'], ['t', 'h', 'e', 'r', 'e', apos, 'd', apos, 'v', 'e']),
  (['t', 'h', 'e', 'r', 'e', apos, 'd', 'v', 'e'], ['t', 'h', 'e', 'r', 'e', apos, 'd', apos, 'v', 'e']),
  (['t', 'h', 'e', 'r', 'e', 'r', 'e'], ['t', 'h', 'e', 'r', 'e', apos, 'r', 'e']),
  (['t', 'h', 'e', 'r', 'e', 's'], ['t', 'h', 'e', 'r', 'e', apos, 's']),
  (['t', 'h', 'e', 'y', 'd'], ['t', 'h', 'e', 'y', apos, 'd']),
  (['t', 'h', 'e', 'y', 'd', apos, 'v', 'e'], ['t', 'h', 'e', 'y', apos, 'd', apos, 'v', 'e']),
  (['t', 'h', 'e', 'y', apos, 'd', 'v', 'e'], ['t', 'h', 'e', 'y', apos, 'd', apos, 'v', 'e']),
  (['t', 'h', 'e', 'y', 'l', 'l'], ['t', 'h', 'e', 'y', apos, 'l', 'l']),
  (['t', 'h', 'e', 'y', 'r', 'e'], ['t', 'h', 'e', 'y', apos, 'r', 'e']),
  (['t', 'h', 'e', 'y', 'v', 'e'], ['t', 'h', 'e', 'y', apos, 'v', 'e']),
  (['t', 'w', 'a', 's'], [apos, 't', 'w', 'a', 's']),
  (['w', 'a', 's', 'n', 't'], ['w', 'a', 's', 'n', apos, 't']),
  (['w', 'e', 'd', apos, 'v', 'e'], ['w', 'e', apos, 'd', apos, 'v', 'e']),
  (['w', 'e', apos, 'd', 'v', 'e'], ['w', 'e', apos, 'd', apos, 'v', 'e']),
  (['w', 'e', 'v', 'e'], ['w', 'e', apos, 'v', 'e']),
  (['w', 'e', 'r', 'e', 'n', 't'], ['w', 'e', 'r', 'e', 'n', apos, 't']),
  (['w', 'h', 'a', 't', 'l', 'l'], ['w', 'h', 'a', 't', apos, 'l', 'l']),
  (['w', 'h', 'a', 't', 'r', 'e'], ['w', 'h', 'a', 't', apos, 'r', 'e']),
  (['w', 'h', 'a', 't', 's'], ['w', 'h', 'a', 't', apos, 's']),
  (['w', 'h', 'a', 't', 'v', 'e'], ['w', 'h', 'a', 't', apos, 'v', 'e']),
  (['w', 'h', 'e', 'n', 's'], ['w', 'h', 'e', 'n', apos, 's']),
  (['w', 'h', 'e', 'r', 'e', 'd'], ['w', 'h', 'e', 'r', 'e', apos, 'd']),
  (['w', 'h', 'e', 'r', 'e', 's'], ['w', 'h', 'e', 'r', 'e', apos, 's']),
  (['w', 'h', 'e', 'r', 'e', 'v', 'e'], ['w', 'h', 'e', 'r', 'e', apos, 'v', 'e']),
  (['w', 'h', 'o', 'd'], ['w', 'h', 'o', apos, 'd']),
  (['w', 'h', 'o', 'd', apos, 'v', 'e'], ['w', 'h', 'o', apos, 'd', apos, 'v', 'e']),
  (['w', 'h', 'o', apos, 'd', 'v', 'e'], ['w', 'h', 'o', apos, 'd', apos, 'v', 'e']),
  (['w', 'h', 'o', 'l', 'l'], ['w', 'h', 'o', apos, 'l', 'l']),
  (['w', 'h', 'o', 's'], ['w', 'h', 'o', apos, 's']),
  (['w', 'h', 'o', 'v', 'e'], ['w', 'h', 'o', apos, 'v', 'e']),
  (['w', 'h', 'y', 'l', 'l'], ['w', 'h', 'y', apos, 'l', 'l']),
  (['w', 'h', 'y', 'r', 'e'], ['w', 'h', 'y', apos, 'r', 'e']),
  (['w', 'h', 'y', 's'], ['w', 'h', 'y', apos, 's']),
  (['w', 'o', 'n', 't'], ['w', 'o', 'n', apos, 't']),
  (['w', 'o', 'u', 'l', 'd', 'v', 'e'], ['w', 'o', 'u', 'l', 'd', apos, 'v', 'e']),
  (['w', 'o', 'u', 'l', 'd', 'n', 't'], ['w', 'o', 'u', 'l', 'd', 'n', apos, 't']),
  (['w', 'o', 'u', 'l', 'd', 'n', 't', apos, 'v', 'e'], ['w', 'o', 'u', 'l', 'd', 'n', apos, 't', apos, 'v', 'e']),
  (['w', 'o', 'u', 'l', 'd', 'n', apos, 't', 'v', 'e'], ['w', 'o', 'u', 'l', 'd', 'n', apos, 't', apos, 'v', 'e']),
  (['y', 'a', 'l', 'l'], ['y', apos, 'a', 'l', 'l']),
  (['y', 'a', 'l', 'l', apos, 'l', 'l'], ['y', apos, 'a', 'l', 'l', apos, 'l', 'l']),
  (['y', apos, 'a', 'l', 'l', 'l', 'l'], ['y', apos, 'a', 'l', 'l', apos, 'l', 'l']),
  (['y', 'a', 'l', 'l', apos, 'd', apos, 'v', 'e'], ['y', apos, 'a', 'l', 'l', apos, 'd', apos, 'v', 'e']),
  (['y', apos, 'a', 'l', 'l', 'd', apos, 'v', 'e'], ['y', apos, 'a', 'l', 'l', apos, 'd', apos, 'v', 'e']),
  (['y', apos, 'a', 'l', 'l', apos, 'd', 'v', 'e'], ['y', apos, 'a', 'l', 'l', apos, 'd', apos, 'v', 'e']),
  (['y', 'o', 'u', 'd'], ['y', 'o', 'u', apos, 'd']),
  (['y', 'o', 'u', 'd', apos, 'v', 'e'], ['y', 'o', 'u', apos, 'd', apos, 'v', 'e']),
  (['y', 'o', 'u', apos, 'd', 'v', 'e'], ['y', 'o', 'u', apos, 'd', apos, 'v', 'e']),
  (['y', 'o', 'u', 'l', 'l'], ['y', 'o', 'u', apos, 'l', 'l']),
  (['y', 'o', 'u', 'r', 'e'], ['y', 'o', 'u', apos, 'r', 'e']),
  (['y', 'o', 'u', 'v', 'e'], ['y', 'o', 'u', apos, 'v', 'e'])
]

def manualPairs : List (List Char × List Char) := [
  (['n', 'o', 'n', 'e'], ['0']),
  (['z', 'e', 'r', 'o'], ['0']),
  (['o', 'n', 'e'], ['1']),
  (['t', 'w', 'o'], ['2']),
  (['t', 'h', 'r', 'e', 'e'], ['3']),
  (['f', 'o', 'u', 'r'], ['4']),
  (['f', 'i', 'v', 'e'], ['5']),
  (['s', 'i', 'x'], ['6']),
  (['s', 'e', 'v', 'e', 'n'], ['7']),
  (['e', 'i', 'g', 'h', 't'], ['8']),
  (['n', 'i', 'n', 'e'], ['9']),
  (['t', 'e', 'n'], ['1', '0'])
]

/-- `_MANUAL_MAP.setdefault(w, w)`: the map applied to a word (the mutating
`setdefault` only ever inserts the identity binding, so lookup-with-default
is its pure meaning). -/
def manualGet (w : List Char) : List Char :=
  (lookupL w manualPairs).getD w

/-- The `_CONTRACTIONS` replacement applied to a word. -/
def contractionGet (w : List Char) : List Char :=
  (lookupL w contractionPairs).getD w

/-- `_process_digit_article`: lowercase, split, number-word map, article
filter, contraction map, rejoin. -/
def processDigitArticle (l : List Char) : List Char :=
  let ws := pySplit (l.map lowerChar)
  let ws2 := (ws.map manualGet).filter (fun w => decide (w ∉ articlesL))
  joinSp (ws2.map contractionGet)

/-- The full normalization pipeline on raw character data. -/
def normalizeL (l : List Char) : List Char :=
  processDigitArticle (processPunctuation (precleanL l))

/-- `_preclean` on `String`. -/
def preclean (s : String) : String :=
  String.mk (precleanL s.data)

/-- Steps 2 and 3 of the pipeline on `String` (applied by the scorer to the
already precleaned strings). -/
def fullNorm (s : String) : String :=
  String.mk (processDigitArticle (processPunctuation s.data))

/-- The full normalization pipeline on `String`. -/
def vqaNormalize (s : String) : String :=
  String.mk (normalizeL s.data)

/-- `_maybe_normalize_for_vqa`: preclean everything; if the precleaned
references are not all identical, apply the full pipeline to references and
prediction and report `true`, else keep the precleaned strings and report
`false`. -/
def maybeNormalizeForVqa (gtAnswers : List String) (predAnswer : String) :
    List String × String × Bool :=
  let gtClean := gtAnswers.map preclean
  let predClean := preclean predAnswer
  if gtClean.dedup.length > 1 then
    (gtClean.map fullNorm, fullNorm predClean, true)
  else
    (gtClean, predClean, false)

/-- Python `min(a, b)`: `a` when `a <= b`, else `b` (equal to `min` on `ℚ`,
but stated with an executable conditional so that the kernel can evaluate
it). -/
def ratMin (a b : ℚ) : ℚ :=
  if a ≤ b then a else b

/-- The per-index leave-one-out accuracies `gt_acc` of
`vqa_official_accuracy`. -/
def gtAccList (humansUsed : List String) (predUsed : String) : List ℚ :=
  (List.range humansUsed.length).map
    (fun i => ratMin 1 (((humansUsed.eraseIdx i).count predUsed : ℚ) / 3))

/-- `vqa_official_accuracy`: returns (accuracy, m_total, pred_used,
humans_used, used_norm); Python float arithmetic is modelled with `ℚ`. -/
def vqaOfficialAccuracy (predAnswer : String) (humanAnswers : List String) :
    ℚ × ℕ × String × List String × Bool :=
  let r := maybeNormalizeForVqa humanAnswers predAnswer
  let humansUsed := r.1
  let predUsed := r.2.1
  let mTotal := humansUsed.count predUsed
  let gtAcc := gtAccList humansUsed predUsed
  let acc : ℚ := if gtAcc.isEmpty then 0 else gtAcc.sum / (gtAcc.length : ℚ)
  (acc, mTotal, predUsed, humansUsed, r.2.2)



/-- One iteration of the `_process_punctuation` loop body. -/
def markStep (l0 : List Char) (out : List Char) (p : Char) : List Char :=
  if punctCond p l0 then pyReplaceCh p [] out else pyReplaceCh p [' '] out

/-- The per-character action of the punctuation loop once the marks in
`seen` have been processed, with all conditions read off the original
string `l0`. -/
def punctCharSeen (l0 seen : List Char) (c : Char) : Option Char :=
  if c ∈ seen then (if punctCond c l0 then none else some ' ') else some c

/-- The per-character action of the whole punctuation loop. -/
def punctCharF (l0 : List Char) (c : Char) : Option Char :=
  punctCharSeen l0 punctList c

theorem punctLoop_eq_foldl (l : List Char) :
    punctLoop l = punctList.foldl (markStep l) l := rfl

theorem pyReplaceCh_nil_eq (c : Char) (l : List Char) :
    pyReplaceCh c [] l = l.filterMap (fun x => if x = c then none else some x) := by
  induction l with
  | nil => rfl
  | cons x rest ih =>
      by_cases h : x = c <;> simp [pyReplaceCh, List.filterMap_cons, h, ih]

theorem pyReplaceCh_space_eq (c : Char) (l : List Char) :
    pyReplaceCh c [' '] l = l.filterMap (fun x => if x = c then some ' ' else some x) := by
  induction l with
  | nil => rfl
  | cons x rest ih =>
      by_cases h : x = c <;> simp [pyReplaceCh, List.filterMap_cons, h, ih]

theorem filterMap_punctCharSeen_nil (l0 l : List Char) :
    l.filterMap (punctCharSeen l0 []) = l := by
  induction l with
  | nil => rfl
  | cons x rest ih => simp [List.filterMap_cons, punctCharSeen, ih]

theorem markStep_filterMap (l0 l : List Char) (pre : List Char) (m : Char)
    (hm : m ≠ ' ') :
    markStep l0 (l.filterMap (punctCharSeen l0 pre)) m =
      l.filterMap (punctCharSeen l0 (pre ++ [m])) := by
  rw [markStep]
  by_cases hc : punctCond m l0
  · rw [if_pos hc, pyReplaceCh_nil_eq, List.filterMap_filterMap]
    apply List.filterMap_congr
    intro c _
    by_cases h3 : c = m
    · subst h3
      by_cases h1 : c ∈ pre <;>
        simp [punctCharSeen, h1, hc, Option.bind, hm, Ne.symm hm]
    · by_cases h1 : c ∈ pre <;> by_cases h2 : punctCond c l0 <;>
        simp [punctCharSeen, h1, h2, h3, Option.bind, hc, hm, Ne.symm hm]
  · rw [if_neg hc, pyReplaceCh_space_eq, List.filterMap_filterMap]
    apply List.filterMap_congr
    intro c _
    by_cases h3 : c = m
    · subst h3
      by_cases h1 : c ∈ pre <;>
        simp [punctCharSeen, h1, hc, Option.bind, hm, Ne.symm hm]
    · by_cases h1 : c ∈ pre <;> by_cases h2 : punctCond c l0 <;>
        simp [punctCharSeen, h1, h2, h3, Option.bind, hc, hm, Ne.symm hm]

theorem foldl_markStep_eq (l0 l : List Char) :
    ∀ (ms pre : List Char), (∀ p ∈ ms, p ≠ ' ') →
      ms.foldl (markStep l0) (l.filterMap (punctCharSeen l0 pre)) =
        l.filterMap (punctCharSeen l0 (pre ++ ms))
  | [], pre, _ => by simp
  | m :: ms, pre, h => by
      rw [List.foldl_cons, markStep_filterMap l0 l pre m (h m (by simp)),
        foldl_markStep_eq l0 l ms (pre ++ [m]) (fun p hp => h p (by simp [hp]))]
      simp

theorem punctLoop_eq_filterMap (l : List Char) :
    punctLoop l = l.filterMap (punctCharF l) := by
  have h0 : (∀ p ∈ punctList, p ≠ ' ') := by decide
  have h := foldl_markStep_eq l l punctList [] h0
  rw [filterMap_punctCharSeen_nil] at h
  rw [punctLoop_eq_foldl, h]
  rfl

/-- The number of periods the period strip would remove (periods not
immediately followed by a digit). -/
def removableCount : List Char → Nat
  | [] => 0
  | c :: rest => (if c = '.' && !(headIsDigit rest) then 1 else 0) + removableCount rest

/-- The period strip with an unlimited budget: remove every period not
immediately followed by a digit. -/
def periodKeepFD : List Char → List Char
  | [] => []
  | c :: rest =>
      if c = '.' && !(headIsDigit rest) then periodKeepFD rest
      else c :: periodKeepFD rest

theorem periodKeepFD_of_removableCount_zero (l : List Char)
    (h : removableCount l = 0) : periodKeepFD l = l := by
  induction l with
  | nil => rfl
  | cons c rest ih =>
      rw [removableCount] at h
      by_cases hc : (c = '.' && !(headIsDigit rest)) = true
      · rw [if_pos hc] at h
        omega
      · rw [if_neg hc] at h
        rw [periodKeepFD, if_neg hc, ih (by omega)]

theorem periodStripAux_eq_keep (l : List Char) :
    ∀ k : Nat, removableCount l ≤ k → periodStripAux k l = periodKeepFD l := by
  induction l with
  | nil => intro k _; cases k <;> rfl
  | cons c rest ih =>
      intro k hk
      rw [removableCount] at hk
      by_cases hc : (c = '.' && !(headIsDigit rest)) = true
      · rw [if_pos hc] at hk
        cases k with
        | zero => omega
        | succ k' =>
            rw [periodKeepFD, if_pos hc]
            show periodStripAux (Nat.succ k') (c :: rest) = periodKeepFD rest
            rw [periodStripAux, if_pos hc]
            exact ih k' (by omega)
      · rw [if_neg hc] at hk
        rw [periodKeepFD, if_neg hc]
        cases k with
        | zero =>
            have h0 : removableCount rest = 0 := by omega
            rw [periodKeepFD_of_removableCount_zero rest h0]
            rfl
        | succ k' =>
            rw [periodStripAux, if_neg hc, ih (Nat.succ k') (by omega)]

/-- Modelled from the spec (claim C3): the per-occurrence punctuation rule.
Each occurrence of a listed mark is examined in the context of the original
string: deleted when adjacent to whitespace on either side, or when it is a
comma between two digits; replaced by a single space otherwise.  Characters
that are not listed marks pass through.  `prev` is the original previous
character. -/
def specPunctOccAux (prev : Option Char) : List Char → List Char
  | [] => []
  | c :: rest =>
      if c ∈ punctList then
        (if ((match prev with | some p => isWs p | none => false) ||
             (match rest with | r :: _ => isWs r | [] => false)) ||
            (c = ',' && (match prev, rest with
                         | some p, r :: _ => p.isDigit && r.isDigit
                         | _, _ => false))
         then specPunctOccAux (some c) rest
         else ' ' :: specPunctOccAux (some c) rest)
      else c :: specPunctOccAux (some c) rest

/-- Modelled from the spec (claim C3): the per-occurrence punctuation pass. -/
def specPunctOcc (l : List Char) : List Char :=
  specPunctOccAux none l

/-- Modelled from the spec (claim C4): remove every period except one that
sits immediately between two digits.  `prev` is the original previous
character. -/
def specPeriodAux (prev : Option Char) : List Char → List Char
  | [] => []
  | c :: rest =>
      if c = '.' then
        (if (match prev with | some p => p.isDigit | none => false) && headIsDigit rest
         then c :: specPeriodAux (some c) rest
         else specPeriodAux (some c) rest)
      else c :: specPeriodAux (some c) rest

/-- Modelled from the spec (claim C4): the period removal described by the
spec, keeping only periods between two digits. -/
def specPeriodPass (l : List Char) : List Char :=
  specPeriodAux none l


/-- C3 (counterexample): the punctuation pass does not treat each occurrence
of a listed mark according to its own context.  On `a ,b,c` the code deletes
every comma (because one comma is adjacent to a space), while the
per-occurrence rule stated by the claim would delete only the space-adjacent
comma and replace the other one by a space. -/
theorem C3_counterexample :
    punctLoop (String.data "a ,b,c") ≠ specPunctOcc (String.data "a ,b,c") ∧
      punctLoop (String.data "a ,b,c") = String.data "a bc" ∧
      specPunctOcc (String.data "a ,b,c") = String.data "a b c" :=
  ⟨by decide, by decide, by decide⟩

/-- C3 (amended): in the punctuation pass, the delete-or-space decision for a
listed mark is taken once from the original input string — delete exactly
when some occurrence of the mark has a space directly before or after it, or
the original string contains a digit-comma-digit substring — and that one
decision is applied to every occurrence of the mark; all other characters
pass through unchanged. -/
theorem C3_amended_perMark (l : List Char) :
    punctLoop l = l.filterMap (fun c =>
      if c ∈ punctList then
        (if (hasPair c ' ' l || hasPair ' ' c l) || hasDigitCommaDigit l then none
         else some ' ')
      else some c) := by
  rw [punctLoop_eq_filterMap]
  apply List.filterMap_congr
  intro c _
  rfl

/-- C10: the delete-versus-space choice of the punctuation pass is made once
per mark from the original input: if the original contains a
digit-comma-digit substring anywhere then every listed mark is deleted at
every occurrence; otherwise a mark is deleted everywhere exactly when some
occurrence of it in the original is directly preceded or followed by a space
character, and is replaced by a space everywhere otherwise. -/
theorem C10_globalMarkDecision (l : List Char) :
    punctLoop l = l.filterMap (fun c =>
      if c ∈ punctList then
        (if hasDigitCommaDigit l then none
         else if hasPair c ' ' l || hasPair ' ' c l then none
         else some ' ')
      else some c) := by
  rw [punctLoop_eq_filterMap]
  apply List.filterMap_congr
  intro c _
  rw [punctCharF, punctCharSeen]
  by_cases h1 : c ∈ punctList
  · rw [if_pos h1, if_pos h1, punctCond]
    by_cases h2 : hasDigitCommaDigit l = true <;>
      by_cases h3 : (hasPair c ' ' l || hasPair ' ' c l) = true <;>
        simp [h2, h3]
  · rw [if_neg h1, if_neg h1]

/-- C4 (counterexample): after the punctuation pass a period immediately
followed by a digit is preserved even when it is not preceded by a digit:
on `.5` the code keeps the period, while the claim (remove every period not
sitting between two digits) would delete it. -/
theorem C4_counterexample :
    processPunctuation (String.data ".5") ≠ specPeriodPass (String.data ".5") ∧
      processPunctuation (String.data ".5") = String.data ".5" ∧
      specPeriodPass (String.data ".5") = String.data "5" :=
  ⟨by decide, by decide, by decide⟩

/-- C4 (amended): as long as at most 32 periods are removable (the
`re.UNICODE` flag is passed as the replacement count of `re.sub`), the
period pass removes exactly the periods not immediately followed by a digit
and keeps every period immediately followed by a digit, regardless of what
precedes it; in particular normalization turns `dog.` into `dog` and keeps
the period of `3.5`. -/
theorem C4_amended_periodKeep (l : List Char)
    (h : removableCount (punctLoop l) ≤ 32) :
    processPunctuation l = periodKeepFD (punctLoop l) ∧
      vqaNormalize "dog." = "dog" ∧ vqaNormalize "3.5" = "3.5" :=
  ⟨periodStripAux_eq_keep (punctLoop l) 32 h, by decide, by decide⟩

/-- C4 (witness): the amended theorem applied at the concrete input `dog.`. -/
theorem C4_amended_periodKeep_witness :
    removableCount (punctLoop (String.data "dog.")) ≤ 32 ∧
      processPunctuation (String.data "dog.") =
        periodKeepFD (punctLoop (String.data "dog.")) :=
  ⟨by decide, (C4_amended_periodKeep (String.data "dog.") (by decide)).1⟩

theorem ratMin_eq_min (a b : ℚ) : ratMin a b = min a b := by
  rw [ratMin, min_def]

/-- The ten references of the leave-one-out example in the spec. -/
def bigRefs : List String :=
  ["red", "red", "red", "blue", "green", "yellow", "black", "white", "pink", "brown"]

/-- Ten identical references `red`. -/
def tenRed : List String :=
  ["red", "red", "red", "red", "red", "red", "red", "red", "red", "red"]

theorem officialAcc_eq (predAnswer : String) (humanAnswers : List String) :
    (vqaOfficialAccuracy predAnswer humanAnswers).1 =
      if (gtAccList (maybeNormalizeForVqa humanAnswers predAnswer).1
            (maybeNormalizeForVqa humanAnswers predAnswer).2.1).isEmpty
      then 0
      else (gtAccList (maybeNormalizeForVqa humanAnswers predAnswer).1
              (maybeNormalizeForVqa humanAnswers predAnswer).2.1).sum /
        ((gtAccList (maybeNormalizeForVqa humanAnswers predAnswer).1
            (maybeNormalizeForVqa humanAnswers predAnswer).2.1).length : ℚ) := rfl

theorem officialAcc_humans (predAnswer : String) (humanAnswers : List String) :
    (vqaOfficialAccuracy predAnswer humanAnswers).2.2.2.1 =
      (maybeNormalizeForVqa humanAnswers predAnswer).1 := rfl

theorem officialAcc_pred (predAnswer : String) (humanAnswers : List String) :
    (vqaOfficialAccuracy predAnswer humanAnswers).2.2.1 =
      (maybeNormalizeForVqa humanAnswers predAnswer).2.1 := rfl

theorem officialAcc_mtotal (predAnswer : String) (humanAnswers : List String) :
    (vqaOfficialAccuracy predAnswer humanAnswers).2.1 =
      (maybeNormalizeForVqa humanAnswers predAnswer).1.count
        (maybeNormalizeForVqa humanAnswers predAnswer).2.1 := rfl

theorem maybeNormalize_fst (gtAnswers : List String) (predAnswer : String) :
    (maybeNormalizeForVqa gtAnswers predAnswer).1 =
      if 1 < (gtAnswers.map preclean).dedup.length then gtAnswers.map vqaNormalize
      else gtAnswers.map preclean := by
  simp only [maybeNormalizeForVqa]
  split
  · simp only [List.map_map]
    rfl
  · rfl

theorem maybeNormalize_pred (gtAnswers : List String) (predAnswer : String) :
    (maybeNormalizeForVqa gtAnswers predAnswer).2.1 =
      if 1 < (gtAnswers.map preclean).dedup.length then vqaNormalize predAnswer
      else preclean predAnswer := by
  simp only [maybeNormalizeForVqa]
  split
  · rfl
  · rfl

theorem maybeNormalize_fst_length (gtAnswers : List String) (predAnswer : String) :
    (maybeNormalizeForVqa gtAnswers predAnswer).1.length = gtAnswers.length := by
  rw [maybeNormalize_fst]
  split <;> simp

theorem dedup_length_gt_one {α : Type} [DecidableEq α] (l : List α) :
    1 < l.dedup.length ↔ ∃ a ∈ l, ∃ b ∈ l, a ≠ b := by
  constructor
  · intro h
    rcases hd : l.dedup with _ | ⟨a, _ | ⟨b, rest⟩⟩
    · rw [hd] at h; simp at h
    · rw [hd] at h; simp at h
    · have ha : a ∈ l := List.mem_dedup.mp (by rw [hd]; simp)
      have hb : b ∈ l := List.mem_dedup.mp (by rw [hd]; simp)
      have hnd := List.nodup_dedup l
      rw [hd] at hnd
      have hab : a ≠ b := by
        intro he
        subst he
        exact (List.nodup_cons.mp hnd).1 (by simp)
      exact ⟨a, ha, b, hb, hab⟩
  · rintro ⟨a, ha, b, hb, hab⟩
    rcases hd : l.dedup with _ | ⟨c, _ | ⟨d, rest⟩⟩
    · have h1 : a ∈ l.dedup := List.mem_dedup.mpr ha
      rw [hd] at h1
      simp at h1
    · have h1 : a ∈ l.dedup := List.mem_dedup.mpr ha
      have h2 : b ∈ l.dedup := List.mem_dedup.mpr hb
      rw [hd] at h1 h2
      simp at h1 h2
      exact absurd (h1.trans h2.symm) hab
    · simp only [List.length_cons]
      omega

theorem gate_iff (gtAnswers : List String) :
    1 < (gtAnswers.map preclean).dedup.length ↔
      ∃ a ∈ gtAnswers, ∃ b ∈ gtAnswers, preclean a ≠ preclean b := by
  rw [dedup_length_gt_one]
  constructor
  · rintro ⟨x, hx, y, hy, hxy⟩
    rcases List.mem_map.mp hx with ⟨a, ha, rfl⟩
    rcases List.mem_map.mp hy with ⟨b, hb, rfl⟩
    exact ⟨a, ha, b, hb, hxy⟩
  · rintro ⟨a, ha, b, hb, hab⟩
    exact ⟨preclean a, List.mem_map_of_mem _ ha, preclean b,
      List.mem_map_of_mem _ hb, hab⟩

/-- The leave-one-out mean formula of the spec, over the processed
prediction and processed references that the scorer itself reports. -/
def looFormula (predAnswer : String) (humanAnswers : List String) : ℚ :=
  ((List.range humanAnswers.length).map (fun i =>
      min 1 ((((vqaOfficialAccuracy predAnswer humanAnswers).2.2.2.1.eraseIdx i).count
          (vqaOfficialAccuracy predAnswer humanAnswers).2.2.1 : ℚ) / 3))).sum /
    (humanAnswers.length : ℚ)

theorem count_cons_eq (a p : String) (l : List String) :
    (a :: l).count p = l.count p + (if a = p then 1 else 0) := by
  rw [List.count_cons]
  by_cases h : a = p <;> simp [h]

theorem range_map_eraseIdx_count (p : String) :
    ∀ (l : List String) (extra : ℕ),
      (List.range l.length).map
        (fun i => ratMin 1 (((extra + (l.eraseIdx i).count p : ℕ) : ℚ) / 3)) =
      l.map (fun a =>
        ratMin 1 (((extra + l.count p - (if a = p then 1 else 0) : ℕ) : ℚ) / 3))
  | [], _ => by simp
  | a :: l, extra => by
      rw [List.length_cons, List.range_succ_eq_map, List.map_cons, List.map_map,
        List.map_cons]
      have hhead : extra + ((a :: l).eraseIdx 0).count p =
          extra + (a :: l).count p - (if a = p then 1 else 0) := by
        rw [List.eraseIdx, count_cons_eq]
        omega
      have htail : ((fun i => ratMin 1 (((extra + ((a :: l).eraseIdx i).count p : ℕ) : ℚ) / 3)) ∘
            Nat.succ) =
          fun i => ratMin 1 ((((extra + (if a = p then 1 else 0)) +
              (l.eraseIdx i).count p : ℕ) : ℚ) / 3) := by
        funext i
        show ratMin 1 (((extra + ((a :: l).eraseIdx (i + 1)).count p : ℕ) : ℚ) / 3) = _
        rw [List.eraseIdx, count_cons_eq]
        congr 3
        omega
      rw [hhead, htail, range_map_eraseIdx_count p l (extra + (if a = p then 1 else 0))]
      congr 1
      apply List.map_congr_left
      intro b _
      congr 3
      rw [count_cons_eq]
      omega

theorem gtAccList_eq_map (l : List String) (p : String) :
    gtAccList l p =
      l.map (fun a => ratMin 1 (((l.count p - (if a = p then 1 else 0) : ℕ) : ℚ) / 3)) := by
  have h := range_map_eraseIdx_count p l 0
  simp only [Nat.zero_add] at h
  rw [gtAccList]
  exact h

theorem isEmpty_eq_decide_length (l : List ℚ) : l.isEmpty = decide (l.length = 0) := by
  cases l <;> rfl

theorem gtAccList_length (l : List String) (p : String) :
    (gtAccList l p).length = l.length := by
  rw [gtAccList]
  simp

theorem acc_of_perm (hu hv : List String) (pu : String) (hp : hu.Perm hv) :
    (if (gtAccList hu pu).isEmpty then (0 : ℚ)
     else (gtAccList hu pu).sum / ((gtAccList hu pu).length : ℚ)) =
    (if (gtAccList hv pu).isEmpty then (0 : ℚ)
     else (gtAccList hv pu).sum / ((gtAccList hv pu).length : ℚ)) := by
  have hlen : hu.length = hv.length := hp.length_eq
  have hsum : (gtAccList hu pu).sum = (gtAccList hv pu).sum := by
    rw [gtAccList_eq_map, gtAccList_eq_map, hp.count_eq pu]
    exact (hp.map _).sum_eq
  have hlen2 : (gtAccList hu pu).length = (gtAccList hv pu).length := by
    rw [gtAccList_length, gtAccList_length, hlen]
  have hempty : (gtAccList hu pu).isEmpty = (gtAccList hv pu).isEmpty := by
    rw [isEmpty_eq_decide_length, isEmpty_eq_decide_length, hlen2]
  rw [hempty, hsum, hlen2]

/-- C1: for every prediction and non-empty reference list, the official
accuracy equals the mean over reference indices i of min(1, others_match_i/3),
where others_match_i counts the references at indices other than i (after the
gated processing step) equal to the processed prediction; and for the ten
references red, red, red, blue, green, yellow, black, white, pink, brown with
prediction red the accuracy is 0.9 within 1e-6. -/
theorem C1_leaveOneOutMean (predAnswer : String) (humanAnswers : List String)
    (h : humanAnswers ≠ []) :
    (vqaOfficialAccuracy predAnswer humanAnswers).1 =
        looFormula predAnswer humanAnswers ∧
      |(vqaOfficialAccuracy "red" bigRefs).1 - 9 / 10| ≤ 1 / 1000000 := by
  constructor
  · have hlen : (maybeNormalizeForVqa humanAnswers predAnswer).1.length =
        humanAnswers.length := maybeNormalize_fst_length humanAnswers predAnswer
    have hne : humanAnswers.length ≠ 0 := fun h0 => h (List.length_eq_zero.mp h0)
    have hEmp : (gtAccList (maybeNormalizeForVqa humanAnswers predAnswer).1
        (maybeNormalizeForVqa humanAnswers predAnswer).2.1).isEmpty = false := by
      rw [isEmpty_eq_decide_length, gtAccList_length, hlen]
      simp [hne]
    rw [officialAcc_eq, hEmp, looFormula, officialAcc_humans, officialAcc_pred]
    simp only [Bool.false_eq_true, if_false]
    rw [gtAccList_length, gtAccList, hlen]
    simp only [ratMin_eq_min]
  · have hval : (vqaOfficialAccuracy "red" bigRefs).1 = 9 / 10 := by decide
    rw [hval]
    norm_num

/-- C1 (witness): the theorem applied to the concrete ten-reference
example. -/
theorem C1_leaveOneOutMean_witness :
    bigRefs ≠ [] ∧
      ((vqaOfficialAccuracy "red" bigRefs).1 = looFormula "red" bigRefs ∧
        |(vqaOfficialAccuracy "red" bigRefs).1 - 9 / 10| ≤ 1 / 1000000) :=
  ⟨by decide, C1_leaveOneOutMean "red" bigRefs (by decide)⟩

/-- C2: the scorer applies the full normalization pipeline to prediction and
references and reports normalization_applied = true exactly when the
precleaned references are not all identical; when they are identical it
compares the precleaned strings directly and reports false; on ten identical
references red with prediction Red. the flag is false and the accuracy 0. -/
theorem C2_unanimousGate (gtAnswers : List String) (predAnswer : String) :
    (maybeNormalizeForVqa gtAnswers predAnswer =
        if ∃ a ∈ gtAnswers, ∃ b ∈ gtAnswers, preclean a ≠ preclean b then
          (gtAnswers.map vqaNormalize, vqaNormalize predAnswer, true)
        else (gtAnswers.map preclean, preclean predAnswer, false)) ∧
      (vqaOfficialAccuracy "Red." tenRed).2.2.2.2 = false ∧
      (vqaOfficialAccuracy "Red." tenRed).1 = 0 := by
  refine ⟨?_, by decide, by decide⟩
  by_cases h : ∃ a ∈ gtAnswers, ∃ b ∈ gtAnswers, preclean a ≠ preclean b
  · rw [if_pos h]
    have hg : 1 < (gtAnswers.map preclean).dedup.length := (gate_iff gtAnswers).mpr h
    simp only [maybeNormalizeForVqa, hg, if_pos, List.map_map, gt_iff_lt]
    rfl
  · rw [if_neg h]
    have hg : ¬ 1 < (gtAnswers.map preclean).dedup.length :=
      fun hc => h ((gate_iff gtAnswers).mp hc)
    simp only [maybeNormalizeForVqa, gt_iff_lt]
    rw [if_neg hg]

/-- C7: the accuracy reported by the official scorer always lies in [0, 1],
the match count is at most the number of references, and an empty reference
list yields accuracy exactly 0. -/
theorem C7_boundedAccuracy (predAnswer : String) (humanAnswers : List String) :
    0 ≤ (vqaOfficialAccuracy predAnswer humanAnswers).1 ∧
      (vqaOfficialAccuracy predAnswer humanAnswers).1 ≤ 1 ∧
      (vqaOfficialAccuracy predAnswer humanAnswers).2.1 ≤ humanAnswers.length ∧
      (vqaOfficialAccuracy predAnswer []).1 = 0 := by
  have hbounds : ∀ x ∈ gtAccList (maybeNormalizeForVqa humanAnswers predAnswer).1
      (maybeNormalizeForVqa humanAnswers predAnswer).2.1, 0 ≤ x ∧ x ≤ 1 := by
    intro x hx
    rw [gtAccList] at hx
    rcases List.mem_map.mp hx with ⟨i, _, rfl⟩
    rw [ratMin_eq_min]
    constructor
    · apply le_min
      · norm_num
      · positivity
    · exact min_le_left 1 _
  refine ⟨?_, ?_, ?_, rfl⟩
  · rw [officialAcc_eq]
    split
    · norm_num
    · apply div_nonneg
      · exact List.sum_nonneg (fun x hx => (hbounds x hx).1)
      · positivity
  · rw [officialAcc_eq]
    split
    · norm_num
    · rename_i hne
      have hlen : (gtAccList (maybeNormalizeForVqa humanAnswers predAnswer).1
          (maybeNormalizeForVqa humanAnswers predAnswer).2.1).length ≠ 0 := by
        intro h0
        rw [isEmpty_eq_decide_length, h0] at hne
        simp at hne
      have hpos : (0 : ℚ) <
          ((gtAccList (maybeNormalizeForVqa humanAnswers predAnswer).1
            (maybeNormalizeForVqa humanAnswers predAnswer).2.1).length : ℚ) := by
        exact_mod_cast Nat.pos_of_ne_zero hlen
      rw [div_le_one hpos]
      have hsum := List.sum_le_card_nsmul
        (gtAccList (maybeNormalizeForVqa humanAnswers predAnswer).1
          (maybeNormalizeForVqa humanAnswers predAnswer).2.1) 1
        (fun x hx => (hbounds x hx).2)
      simpa using hsum
  · rw [officialAcc_mtotal]
    calc (maybeNormalizeForVqa humanAnswers predAnswer).1.count
          (maybeNormalizeForVqa humanAnswers predAnswer).2.1
        ≤ (maybeNormalizeForVqa humanAnswers predAnswer).1.length :=
          List.count_le_length _ _
      _ = humanAnswers.length := maybeNormalize_fst_length humanAnswers predAnswer

/-- C9: the accuracy of the official scorer is invariant under every
permutation of the reference list. -/
theorem C9_permutationInvariance (predAnswer : String)
    (refs refs2 : List String) (h : refs.Perm refs2) :
    (vqaOfficialAccuracy predAnswer refs).1 =
      (vqaOfficialAccuracy predAnswer refs2).1 := by
  have hgate : (refs.map preclean).dedup.length = (refs2.map preclean).dedup.length :=
    ((h.map preclean).dedup).length_eq
  have hperm : (maybeNormalizeForVqa refs predAnswer).1.Perm
      (maybeNormalizeForVqa refs2 predAnswer).1 := by
    rw [maybeNormalize_fst, maybeNormalize_fst, hgate]
    split
    · exact h.map vqaNormalize
    · exact h.map preclean
  have hpred : (maybeNormalizeForVqa refs predAnswer).2.1 =
      (maybeNormalizeForVqa refs2 predAnswer).2.1 := by
    rw [maybeNormalize_pred, maybeNormalize_pred, hgate]
  rw [officialAcc_eq, officialAcc_eq, hpred]
  exact acc_of_perm _ _ _ hperm

/-- C9 (witness): the theorem applied to a concrete transposition. -/
theorem C9_permutationInvariance_witness :
    (["red", "blue"] : List String).Perm ["blue", "red"] ∧
      (vqaOfficialAccuracy "red" ["red", "blue"]).1 =
        (vqaOfficialAccuracy "red" ["blue", "red"]).1 :=
  ⟨List.Perm.swap "blue" "red" [],
    C9_permutationInvariance "red" ["red", "blue"] ["blue", "red"]
      (List.Perm.swap "blue" "red" [])⟩

/-- One prediction record of `responses.jsonl`, after the `str(...)`
coercions of the main loop. -/
structure PredRow where
  preprocessor : String
  sample_id : String
  assistant_text : String

/-- One dataset item as used by the main loop: the `answers` field is
`some` a string list when it is a list (already coerced to strings), and
`none` when it is absent or not a list. -/
structure DataItem where
  question : String
  answers : Option (List String)

/-- The accumulator state of the main loop: per-preprocessor accuracy sums
and counts, the missing counter and the total line counter. -/
structure BatchState where
  accSum : String → ℚ
  cnt : String → ℕ
  missing : ℕ
  total : ℕ

/-- The initial accumulator state. -/
def initState : BatchState :=
  ⟨fun _ => 0, fun _ => 0, 0, 0⟩

/-- One iteration of the main loop of `main`: count the line; if the
sample_id is absent from the dataset increment `missing_in_dataset` and
skip; if the answers are not a list or the list is empty skip (without
touching any counter); otherwise score and accumulate into the row's
preprocessor group. -/
def batchStep (lookup : String → Option DataItem) (st : BatchState)
    (row : PredRow) : BatchState :=
  let st1 : BatchState := { st with total := st.total + 1 }
  match lookup row.sample_id with
  | none => { st1 with missing := st1.missing + 1 }
  | some item =>
      match item.answers with
      | none => st1
      | some [] => st1
      | some (h :: t) =>
          let acc := (vqaOfficialAccuracy row.assistant_text (h :: t)).1
          { st1 with
            accSum := fun g =>
              if g = row.preprocessor then st1.accSum g + acc else st1.accSum g,
            cnt := fun g =>
              if g = row.preprocessor then st1.cnt g + 1 else st1.cnt g }

/-- The main loop of `main` over all prediction rows. -/
def batchRun (lookup : String → Option DataItem) (rows : List PredRow) :
    BatchState :=
  rows.foldl (batchStep lookup) initState

/-- A dataset with a single item whose reference answer list is empty. -/
def exLookup : String → Option DataItem :=
  fun sid => if sid = "s1" then some ⟨"q", some []⟩ else none

/-- A single prediction row whose sample is present but has no reference
answers. -/
def exRows : List PredRow :=
  [⟨"g", "s1", "x"⟩]

/-- C5 (counterexample): a record whose sample_id is present but whose
reference answer list is empty is skipped without incrementing the missing
count: the claim says it increments the missing count, but the code leaves
it at 0. -/
theorem C5_counterexample :
    (batchRun exLookup exRows).missing = 0 ∧
      (batchRun exLookup exRows).missing ≠ 1 ∧
      (batchRun exLookup exRows).cnt "g" = 0 ∧
      (batchRun exLookup exRows).accSum "g" = 0 ∧
      (batchRun exLookup exRows).total = 1 :=
  ⟨rfl, by decide, rfl, rfl, rfl⟩

/-- C5 (amended): a record whose sample_id is absent from the lookup
increments the missing count and is skipped; a record whose reference
answer list is empty or not a list is skipped without incrementing the
missing count; in both cases the record contributes to no group's count and
to no group's accuracy sum, and the batch does not fail (the step is a
total function). -/
theorem C5_missingHandling (lookup : String → Option DataItem)
    (st : BatchState) (row : PredRow) :
    (lookup row.sample_id = none →
        batchStep lookup st row =
          { st with total := st.total + 1, missing := st.missing + 1 }) ∧
      (∀ item, lookup row.sample_id = some item →
        (item.answers = none ∨ item.answers = some []) →
          batchStep lookup st row = { st with total := st.total + 1 }) := by
  constructor
  · intro h
    rw [batchStep, h]
  · intro item h hitem
    obtain ⟨q, ans⟩ := item
    rcases hitem with h2 | h2 <;>
      (change ans = _ at h2; subst h2; rw [batchStep, h])

/-- C5 (witness): the amended theorem applied at a concrete missing
sample and at the concrete empty-answer sample. -/
theorem C5_missingHandling_witness :
    (exLookup "zzz" = none ∧
      batchStep exLookup initState ⟨"g", "zzz", "x"⟩ =
        { initState with total := initState.total + 1,
                         missing := initState.missing + 1 }) ∧
    (exLookup "s1" = some ⟨"q", some []⟩ ∧
      batchStep exLookup initState ⟨"g", "s1", "x"⟩ =
        { initState with total := initState.total + 1 }) :=
  ⟨⟨rfl, (C5_missingHandling exLookup initState ⟨"g", "zzz", "x"⟩).1 rfl⟩,
   ⟨rfl, (C5_missingHandling exLookup initState ⟨"g", "s1", "x"⟩).2
      ⟨"q", some []⟩ rfl (Or.inr rfl)⟩⟩

/-- Every period in the list is immediately followed by a digit. -/
def periodsOkB : List Char → Bool
  | [] => true
  | c :: rest => (!(c = '.') || headIsDigit rest) && periodsOkB rest

theorem isDigit_ne_dot {c : Char} (h : c.isDigit = true) : ¬ c = '.' := by
  intro he
  subst he
  simp at h

theorem periodStripAux_id_of_ok (l : List Char) (h : periodsOkB l = true) :
    ∀ k, periodStripAux k l = l := by
  induction l with
  | nil => intro k; cases k <;> rfl
  | cons c rest ih =>
      intro k
      rw [periodsOkB, Bool.and_eq_true] at h
      cases k with
      | zero => rfl
      | succ k' =>
          rw [periodStripAux]
          have hc : (decide (c = '.') && !(headIsDigit rest)) = false := by
            rcases (Bool.or_eq_true _ _).mp h.1 with h1 | h1
            · simp only [Bool.not_eq_true'] at h1
              simp [h1]
            · simp [h1]
          rw [hc]
          simp only [Bool.false_eq_true, if_false]
          rw [ih h.2 (Nat.succ k')]

theorem periodKeepFD_head_digit (d : Char) (rest : List Char)
    (hd : d.isDigit = true) :
    periodKeepFD (d :: rest) = d :: periodKeepFD rest := by
  rw [periodKeepFD]
  have : (decide (d = '.') && !(headIsDigit rest)) = false := by
    simp [isDigit_ne_dot hd]
  rw [this]
  simp

theorem periodsOkB_periodKeepFD (l : List Char) :
    periodsOkB (periodKeepFD l) = true := by
  induction l with
  | nil => rfl
  | cons c rest ih =>
      rw [periodKeepFD]
      by_cases hc : (decide (c = '.') && !(headIsDigit rest)) = true
      · rw [if_pos hc]
        exact ih
      · rw [if_neg hc]
        rw [periodsOkB, Bool.and_eq_true]
        refine ⟨?_, ih⟩
        by_cases hcd : c = '.'
        · have hdig : headIsDigit rest = true := by
            by_contra hnot
            exact hc (by simp [hcd, Bool.not_eq_true] at hnot ⊢; simp [hnot])
          rcases rest with _ | ⟨d, rest'⟩
          · simp [headIsDigit] at hdig
          · have hd : d.isDigit = true := hdig
            rw [periodKeepFD_head_digit d rest' hd]
            simp [headIsDigit, hd]
        · simp [hcd]

theorem mem_periodStripAux (l : List Char) :
    ∀ k c, c ∈ periodStripAux k l → c ∈ l := by
  induction l with
  | nil => intro k c h; cases k <;> simp [periodStripAux] at h
  | cons x rest ih =>
      intro k c h
      cases k with
      | zero => exact h
      | succ k' =>
          rw [periodStripAux] at h
          by_cases hx : (decide (x = '.') && !(headIsDigit rest)) = true
          · rw [if_pos hx] at h
            exact List.mem_cons_of_mem x (ih k' c h)
          · rw [if_neg hx] at h
            rcases List.mem_cons.mp h with h1 | h1
            · exact h1 ▸ List.mem_cons_self x rest
            · exact List.mem_cons_of_mem x (ih (Nat.succ k') c h1)

theorem count_le_of_filterMap (f : Char → Option Char) (x : Char)
    (hf : ∀ a, f a = some x → a = x) (l : List Char) :
    (l.filterMap f).count x ≤ l.count x := by
  induction l with
  | nil => simp
  | cons a rest ih =>
      rw [List.filterMap_cons]
      cases hfa : f a with
      | none =>
          calc (rest.filterMap f).count x ≤ rest.count x := ih
            _ ≤ (a :: rest).count x := by rw [List.count_cons]; omega
      | some b =>
          rw [List.count_cons, List.count_cons]
          by_cases hb : b = x
          · have hax : a = x := hf a (by rw [hfa, hb])
            have h1 : (b == x) = true := by simp [hb]
            have h2 : (a == x) = true := by simp [hax]
            rw [h1, h2]
            simp only [if_pos]
            omega
          · have hbx : (b == x) = false := by simp [hb]
            rw [hbx]
            simp only [Bool.false_eq_true, if_false]
            omega

theorem count_punctLoop_dot_le (l : List Char) :
    (punctLoop l).count '.' ≤ l.count '.' := by
  rw [punctLoop_eq_filterMap]
  apply count_le_of_filterMap
  intro a ha
  rw [punctCharF, punctCharSeen] at ha
  by_cases h1 : a ∈ punctList
  · rw [if_pos h1] at ha
    by_cases h2 : punctCond a l = true
    · rw [if_pos h2] at ha
      simp at ha
    · rw [if_neg h2] at ha
      simp at ha
  · rw [if_neg h1] at ha
    exact (Option.some_inj.mp ha)

theorem count_dropWhile_le (p : Char → Bool) (x : Char) (l : List Char) :
    (l.dropWhile p).count x ≤ l.count x := by
  induction l with
  | nil => simp
  | cons a rest ih =>
      rw [List.dropWhile_cons]
      by_cases h : p a = true
      · rw [if_pos h]
        calc (rest.dropWhile p).count x ≤ rest.count x := ih
          _ ≤ (a :: rest).count x := by rw [List.count_cons]; omega
      · rw [if_neg h]

theorem count_stripWs_le (x : Char) (l : List Char) :
    (stripWs l).count x ≤ l.count x := by
  rw [stripWs]
  calc (((l.dropWhile (fun c => isWs c)).reverse.dropWhile (fun c => isWs c)).reverse).count x
      = ((l.dropWhile (fun c => isWs c)).reverse.dropWhile (fun c => isWs c)).count x := by
        rw [List.count_reverse]
    _ ≤ (l.dropWhile (fun c => isWs c)).reverse.count x := count_dropWhile_le _ x _
    _ = (l.dropWhile (fun c => isWs c)).count x := by rw [List.count_reverse]
    _ ≤ l.count x := count_dropWhile_le _ x l

theorem count_map_nlChar_dot (l : List Char) :
    (l.map nlChar).count '.' = l.count '.' := by
  induction l with
  | nil => rfl
  | cons a rest ih =>
      rw [List.map_cons, List.count_cons, List.count_cons, ih]
      have : (nlChar a == '.') = (a == '.') := by
        rw [nlChar]
        by_cases h : (a = Char.ofNat 10 || a = Char.ofNat 9) = true
        · rw [if_pos h]
          rcases Bool.or_eq_true _ _ |>.mp h with h1 | h1 <;>
            · simp only [decide_eq_true_eq] at h1
              subst h1
              decide
        · rw [if_neg h]
      rw [this]

theorem removableCount_le_count_dot (l : List Char) :
    removableCount l ≤ l.count '.' := by
  induction l with
  | nil => simp [removableCount]
  | cons c rest ih =>
      rw [removableCount, List.count_cons]
      by_cases h : (decide (c = '.') && !(headIsDigit rest)) = true
      · rw [if_pos h]
        have : (c == '.') = true := by
          rcases Bool.and_eq_true _ _ |>.mp h with ⟨h1, _⟩
          simpa using h1
        rw [this]
        simp only [if_pos]
        omega
      · rw [if_neg h]
        omega

theorem rawSplit_cons (c : Char) (l : List Char) :
    rawSplit (c :: l) = splitStep c (rawSplit l) := rfl

theorem rawSplit_ne_nil (c : Char) (l : List Char) : rawSplit (c :: l) ≠ [] := by
  rw [rawSplit_cons, splitStep.eq_def]
  by_cases h : isWs c = true
  · rw [if_pos h]
    simp
  · rw [if_neg h]
    rcases rawSplit l with _ | ⟨w, rest⟩ <;> simp

theorem rawSplit_eq_nil_iff (l : List Char) : rawSplit l = [] ↔ l = [] := by
  cases l with
  | nil => simp [rawSplit]
  | cons c rest => simp [rawSplit_ne_nil c rest]

theorem rawSplit_chars (l : List Char) :
    ∀ w ∈ rawSplit l, ∀ c ∈ w, isWs c = false ∧ c ∈ l := by
  induction l with
  | nil => intro w hw; simp [rawSplit] at hw
  | cons x rest ih =>
      intro w hw c hc
      rw [rawSplit_cons, splitStep.eq_def] at hw
      by_cases hx : isWs x = true
      · rw [if_pos hx] at hw
        rcases List.mem_cons.mp hw with h1 | h1
        · subst h1
          simp at hc
        · rcases ih w h1 c hc with ⟨hws, hmem⟩
          exact ⟨hws, List.mem_cons_of_mem x hmem⟩
      · rw [if_neg hx] at hw
        rcases hr : rawSplit rest with _ | ⟨w0, ps⟩
        · rw [hr] at hw
          simp at hw
          subst hw
          simp at hc
          subst hc
          exact ⟨by simpa using hx, by simp⟩
        · rw [hr] at hw
          rcases List.mem_cons.mp hw with h1 | h1
          · subst h1
            rcases List.mem_cons.mp hc with h2 | h2
            · subst h2
              exact ⟨by simpa using hx, List.mem_cons_self c rest⟩
            · rcases ih w0 (by rw [hr]; simp) c h2 with ⟨hws, hmem⟩
              exact ⟨hws, List.mem_cons_of_mem x hmem⟩
          · rcases ih w (by rw [hr]; simp [h1]) c hc with ⟨hws, hmem⟩
            exact ⟨hws, List.mem_cons_of_mem x hmem⟩

theorem pySplit_chars (l : List Char) :
    ∀ w ∈ pySplit l, w ≠ [] ∧ ∀ c ∈ w, isWs c = false ∧ c ∈ l := by
  intro w hw
  rw [pySplit, List.mem_filter] at hw
  refine ⟨by simpa using hw.2, fun c hc => rawSplit_chars l w hw.1 c hc⟩

theorem rawSplit_all_nonws (l : List Char) (hne : l ≠ [])
    (h : ∀ c ∈ l, isWs c = false) : rawSplit l = [l] := by
  induction l with
  | nil => exact absurd rfl hne
  | cons c rest ih =>
      rw [rawSplit_cons]
      rcases rest with _ | ⟨d, rest'⟩
      · rw [splitStep.eq_def, if_neg (by simp [h c (by simp)])]
        rfl
      · rw [ih (by simp) (fun x hx => h x (List.mem_cons_of_mem c hx))]
        rw [splitStep.eq_def, if_neg (by simp [h c (by simp)])]

theorem rawSplit_word_append (w l : List Char) (h : ∀ c ∈ w, isWs c = false) :
    rawSplit (w ++ ' ' :: l) = w :: rawSplit l := by
  induction w with
  | nil =>
      simp only [List.nil_append]
      rw [rawSplit_cons, splitStep.eq_def, if_pos (by decide)]
  | cons c w' ih =>
      rw [List.cons_append, rawSplit_cons,
        ih (fun x hx => h x (List.mem_cons_of_mem c hx))]
      rw [splitStep.eq_def, if_neg (by simp [h c (by simp)])]

theorem pySplit_joinSp (ws : List (List Char))
    (h : ∀ w ∈ ws, w ≠ [] ∧ ∀ c ∈ w, isWs c = false) :
    pySplit (joinSp ws) = ws := by
  induction ws with
  | nil => rfl
  | cons w ws' ih =>
      rcases ws' with _ | ⟨w2, ws''⟩
      · show pySplit w = [w]
        rw [pySplit, rawSplit_all_nonws w (h w (by simp)).1
          (fun c hc => (h w (by simp)).2 c hc)]
        simp [(h w (by simp)).1]
      · show pySplit (w ++ ' ' :: joinSp (w2 :: ws'')) = w :: w2 :: ws''
        rw [pySplit, rawSplit_word_append w _ (fun c hc => (h w (by simp)).2 c hc)]
        rw [List.filter_cons_of_pos (by simpa using (h w (by simp)).1)]
        have := ih (fun x hx => h x (List.mem_cons_of_mem w hx))
        rw [pySplit] at this
        rw [this]

theorem isWs_not_digit {d : Char} (h : isWs d = true) : d.isDigit = false := by
  simp only [isWs, Bool.or_eq_true, decide_eq_true_eq] at h
  rcases h with ((((h | h) | h) | h) | h) | h <;> subst h <;> decide

theorem periodsOkB_rawSplit (l : List Char) (h : periodsOkB l = true) :
    ∀ w ∈ rawSplit l, periodsOkB w = true := by
  induction l with
  | nil => intro w hw; simp [rawSplit] at hw
  | cons c rest ih =>
      intro w hw
      rw [periodsOkB, Bool.and_eq_true] at h
      rw [rawSplit_cons, splitStep.eq_def] at hw
      by_cases hc : isWs c = true
      · rw [if_pos hc] at hw
        rcases List.mem_cons.mp hw with h1 | h1
        · subst h1; rfl
        · exact ih h.2 w h1
      · rw [if_neg hc] at hw
        have hcnd : (!(decide (c = '.')) || headIsDigit rest) = true := h.1
        rcases hr : rawSplit rest with _ | ⟨w0, ps⟩
        · rw [hr] at hw
          simp at hw
          subst hw
          have hrest : rest = [] := (rawSplit_eq_nil_iff rest).mp hr
          subst hrest
          rw [periodsOkB, periodsOkB]
          simpa using hcnd
        · rw [hr] at hw
          rcases List.mem_cons.mp hw with h1 | h1
          · subst h1
            rw [periodsOkB, Bool.and_eq_true]
            constructor
            · rcases hrest2 : rest with _ | ⟨d, rest'⟩
              · rw [hrest2] at hr
                simp [rawSplit] at hr
              · rw [hrest2] at hcnd hr
                by_cases hdws : isWs d = true
                · rw [rawSplit_cons, splitStep.eq_def, if_pos hdws] at hr
                  injection hr with hw0 hps
                  have hdd : d.isDigit = false := isWs_not_digit hdws
                  simp only [headIsDigit, hdd, Bool.or_false] at hcnd
                  rw [← hw0]
                  simp only [headIsDigit, Bool.or_false]
                  exact hcnd
                · rw [rawSplit_cons, splitStep.eq_def, if_neg (by simp [hdws])] at hr
                  rcases hrr : rawSplit rest' with _ | ⟨w1, ps1⟩
                  · rw [hrr] at hr
                    injection hr with hw0 hps
                    rw [← hw0]
                    simpa [headIsDigit] using hcnd
                  · rw [hrr] at hr
                    injection hr with hw0 hps
                    rw [← hw0]
                    simpa [headIsDigit] using hcnd
            · rcases hw0e : w0 with _ | ⟨a, w0t⟩
              · rfl
              · have : w0 ∈ rawSplit rest := by rw [hr]; simp
                rw [← hw0e]
                exact ih h.2 w0 this
          · exact ih h.2 w (by rw [hr]; simp [h1])

theorem periodsOkB_pySplit (l : List Char) (h : periodsOkB l = true) :
    ∀ w ∈ pySplit l, periodsOkB w = true := by
  intro w hw
  rw [pySplit, List.mem_filter] at hw
  exact periodsOkB_rawSplit l h w hw.1

theorem lookupL_mem {α β : Type} [DecidableEq α] (w : α) (t : List (α × β))
    (v : β) (h : lookupL w t = some v) : (w, v) ∈ t := by
  induction t with
  | nil => simp [lookupL] at h
  | cons kv rest ih =>
      rw [lookupL] at h
      by_cases hk : kv.1 = w
      · rw [if_pos hk] at h
        have hv : v = kv.2 := (Option.some_inj.mp h).symm
        subst hv
        rw [← hk]
        simp
      · rw [if_neg hk] at h
        exact List.mem_cons_of_mem kv (ih h)

theorem lowerChar_cases (c : Char) :
    lowerChar c = c ∨ (c, lowerChar c) ∈ lowerPairs := by
  rw [lowerChar]
  cases hl : lookupL c lowerPairs with
  | none => exact Or.inl rfl
  | some d => exact Or.inr (lookupL_mem c lowerPairs d hl)

theorem lowerChar_idem (c : Char) : lowerChar (lowerChar c) = lowerChar c := by
  rcases lowerChar_cases c with h | h
  · rw [h, h]
  · have hvals : ∀ p ∈ lowerPairs, lookupL p.2 lowerPairs = none := by decide
    have := hvals (c, lowerChar c) h
    rw [lowerChar, this]
    rfl

theorem lowerChar_eq_iff (c m : Char)
    (hm : ∀ p ∈ lowerPairs, p.1 ≠ m ∧ p.2 ≠ m) : lowerChar c = m ↔ c = m := by
  rcases lowerChar_cases c with h | h
  · rw [h]
  · constructor
    · intro he
      exact absurd he (hm (c, lowerChar c) h).2
    · intro he
      exact absurd he (hm (c, lowerChar c) h).1

theorem lowerChar_isDigit (c : Char) : (lowerChar c).isDigit = c.isDigit := by
  rcases lowerChar_cases c with h | h
  · rw [h]
  · have hd : ∀ p ∈ lowerPairs, p.1.isDigit = false ∧ p.2.isDigit = false := by decide
    rw [(hd _ h).2, (hd _ h).1]

theorem lowerChar_isWs (c : Char) : isWs (lowerChar c) = isWs c := by
  rcases lowerChar_cases c with h | h
  · rw [h]
  · have hd : ∀ p ∈ lowerPairs, isWs p.1 = false ∧ isWs p.2 = false := by decide
    rw [(hd _ h).2, (hd _ h).1]

theorem lowerChar_mark_iff (c : Char) :
    lowerChar c ∈ punctList ↔ c ∈ punctList := by
  rcases lowerChar_cases c with h | h
  · rw [h]
  · have hd : ∀ p ∈ lowerPairs, (p.1 ∈ punctList) = False ∧ (p.2 ∈ punctList) = False := by
      decide
    rw [(hd _ h).2, (hd _ h).1]

theorem periodsOkB_map_lower (l : List Char) (h : periodsOkB l = true) :
    periodsOkB (l.map lowerChar) = true := by
  induction l with
  | nil => rfl
  | cons c rest ih =>
      rw [periodsOkB, Bool.and_eq_true] at h
      rw [List.map_cons, periodsOkB, Bool.and_eq_true]
      refine ⟨?_, ih h.2⟩
      have hdot : (decide (lowerChar c = '.')) = (decide (c = '.')) := by
        by_cases hc : c = '.'
        · subst hc
          decide
        · have hnc : ¬ lowerChar c = '.' :=
            fun hx => hc ((lowerChar_eq_iff c '.' (by decide)).mp hx)
          simp [hc, hnc]
      have hrest : headIsDigit (rest.map lowerChar) = headIsDigit rest := by
        rcases rest with _ | ⟨d, rest'⟩
        · rfl
        · simp [headIsDigit, lowerChar_isDigit]
      rw [hrest, hdot]
      exact h.1

theorem joinSp_cons_cons (w w2 : List Char) (ws : List (List Char)) :
    joinSp (w :: w2 :: ws) = w ++ ' ' :: joinSp (w2 :: ws) := rfl

theorem joinSp_chars (ws : List (List Char)) :
    ∀ c ∈ joinSp ws, c = ' ' ∨ ∃ w ∈ ws, c ∈ w := by
  induction ws with
  | nil => intro c hc; simp [joinSp] at hc
  | cons w ws' ih =>
      intro c hc
      rcases ws' with _ | ⟨w2, ws''⟩
      · exact Or.inr ⟨w, by simp, hc⟩
      · rw [joinSp_cons_cons] at hc
        rcases List.mem_append.mp hc with h1 | h1
        · exact Or.inr ⟨w, by simp, h1⟩
        · rcases List.mem_cons.mp h1 with h2 | h2
          · exact Or.inl h2
          · rcases ih c h2 with h3 | ⟨w3, hw3, hc3⟩
            · exact Or.inl h3
            · exact Or.inr ⟨w3, List.mem_cons_of_mem w hw3, hc3⟩

theorem periodsOkB_append (u v : List Char) (hu : periodsOkB u = true)
    (hv : periodsOkB v = true) : periodsOkB (u ++ v) = true := by
  induction u with
  | nil => simpa using hv
  | cons c u' ih =>
      rw [periodsOkB, Bool.and_eq_true] at hu
      rw [List.cons_append, periodsOkB, Bool.and_eq_true]
      refine ⟨?_, ih hu.2⟩
      rcases u' with _ | ⟨d, u''⟩
      · have : (!decide (c = '.')) = true := by simpa [headIsDigit] using hu.1
        simp [this]
      · simpa [headIsDigit] using hu.1

theorem periodsOkB_joinSp (ws : List (List Char))
    (h : ∀ w ∈ ws, periodsOkB w = true) : periodsOkB (joinSp ws) = true := by
  induction ws with
  | nil => rfl
  | cons w ws' ih =>
      rcases ws' with _ | ⟨w2, ws''⟩
      · exact h w (by simp)
      · rw [joinSp_cons_cons]
        apply periodsOkB_append
        · exact h w (by simp)
        · rw [periodsOkB, Bool.and_eq_true]
          exact ⟨by simp, ih (fun x hx => h x (List.mem_cons_of_mem w hx))⟩

theorem joinSp_ne_nil (w : List Char) (ws : List (List Char)) (hw : w ≠ []) :
    joinSp (w :: ws) ≠ [] := by
  rcases ws with _ | ⟨w2, ws'⟩
  · simpa [joinSp] using hw
  · rw [joinSp_cons_cons]
    rcases w with _ | ⟨a, w'⟩
    · exact absurd rfl hw
    · simp

theorem joinSp_head_nonws (ws : List (List Char))
    (h : ∀ w ∈ ws, w ≠ [] ∧ ∀ c ∈ w, isWs c = false) :
    ∀ c, (joinSp ws).head? = some c → isWs c = false := by
  intro c hc
  rcases ws with _ | ⟨w, ws'⟩
  · simp [joinSp] at hc
  · rcases hw : w with _ | ⟨a, w''⟩
    · exact absurd hw (h w (by simp)).1
    · have hhd : (joinSp (w :: ws')).head? = some a := by
        rcases ws' with _ | ⟨w2, ws''⟩
        · show w.head? = some a
          rw [hw]
          rfl
        · rw [joinSp_cons_cons, hw]
          rfl
      rw [hhd] at hc
      have hac : a = c := Option.some_inj.mp hc
      subst hac
      exact (h w (by simp)).2 a (by rw [hw]; simp)

theorem getLast?_cons_cons (a b : Char) (l : List Char) :
    (a :: b :: l).getLast? = (b :: l).getLast? := by
  rfl

theorem mem_of_getLast?_eq (l : List Char) (c : Char) (h : l.getLast? = some c) :
    c ∈ l := by
  induction l with
  | nil => simp at h
  | cons a l2 ih =>
      rcases l2 with _ | ⟨b, l3⟩
      · simp at h
        simp [h]
      · rw [getLast?_cons_cons] at h
        exact List.mem_cons_of_mem a (ih h)

theorem joinSp_getLast_nonws (ws : List (List Char))
    (h : ∀ w ∈ ws, w ≠ [] ∧ ∀ c ∈ w, isWs c = false) :
    ∀ c, (joinSp ws).getLast? = some c → isWs c = false := by
  induction ws with
  | nil => intro c hc; simp [joinSp] at hc
  | cons w ws' ih =>
      intro c hc
      rcases ws' with _ | ⟨w2, ws''⟩
      · have hcm : c ∈ w := by
          have h2 : w.getLast? = some c := hc
          exact mem_of_getLast?_eq w c h2
        exact (h w (by simp)).2 c hcm
      · rw [joinSp_cons_cons] at hc
        have hJ : joinSp (w2 :: ws'') ≠ [] :=
          joinSp_ne_nil w2 ws'' (h w2 (by simp)).1
        have hne : (' ' :: joinSp (w2 :: ws'')) ≠ [] := by simp
        rw [List.getLast?_append_of_ne_nil _ hne] at hc
        have hc2 : (joinSp (w2 :: ws'')).getLast? = some c := by
          rcases hJe : joinSp (w2 :: ws'') with _ | ⟨b, J'⟩
          · exact absurd hJe hJ
          · rw [hJe] at hc
            rw [getLast?_cons_cons] at hc
            exact hc
        exact ih (fun x hx => h x (List.mem_cons_of_mem w hx)) c hc2

theorem stripWs_id_of_bounds (l : List Char)
    (h1 : ∀ c, l.head? = some c → isWs c = false)
    (h2 : ∀ c, l.getLast? = some c → isWs c = false) :
    stripWs l = l := by
  rw [stripWs]
  have hd : l.dropWhile (fun c => isWs c) = l := by
    rcases l with _ | ⟨a, l'⟩
    · rfl
    · rw [List.dropWhile_cons, if_neg (by simp [h1 a rfl])]
  rw [hd]
  have hd2 : l.reverse.dropWhile (fun c => isWs c) = l.reverse := by
    rcases hr : l.reverse with _ | ⟨a, r'⟩
    · rfl
    · rw [List.dropWhile_cons]
      have hla : l.getLast? = some a := by
        rw [← List.head?_reverse, hr]
        rfl
      rw [if_neg (by simp [h2 a hla])]
  rw [hd2, List.reverse_reverse]

theorem filterMap_some_id (l : List Char) : l.filterMap (fun c => some c) = l := by
  induction l with
  | nil => rfl
  | cons a rest ih =>
      rw [List.filterMap_cons]
      simp only
      rw [ih]

theorem punctLoop_no_marks (l : List Char) :
    ∀ c ∈ punctLoop l, c ∉ punctList := by
  intro c hc
  rw [punctLoop_eq_filterMap] at hc
  rcases List.mem_filterMap.mp hc with ⟨a, _, ha⟩
  rw [punctCharF, punctCharSeen] at ha
  by_cases h1 : a ∈ punctList
  · rw [if_pos h1] at ha
    by_cases h2 : punctCond a l = true
    · rw [if_pos h2] at ha
      simp at ha
    · rw [if_neg h2] at ha
      have : c = ' ' := (Option.some_inj.mp ha).symm
      subst this
      decide
  · rw [if_neg h1] at ha
    have : c = a := (Option.some_inj.mp ha).symm
    subst this
    exact h1

theorem punctLoop_id_of_no_marks (l : List Char)
    (h : ∀ c ∈ l, c ∉ punctList) : punctLoop l = l := by
  rw [punctLoop_eq_filterMap]
  have : l.filterMap (punctCharF l) = l.filterMap (fun c => some c) := by
    apply List.filterMap_congr
    intro c hc
    rw [punctCharF, punctCharSeen, if_neg (h c hc)]
  rw [this, filterMap_some_id]

/-- The words produced by `_process_digit_article`. -/
def pdaWords (l : List Char) : List (List Char) :=
  (((pySplit (l.map lowerChar)).map manualGet).filter
      (fun w => decide (w ∉ articlesL))).map contractionGet

theorem processDigitArticle_eq_joinSp (l : List Char) :
    processDigitArticle l = joinSp (pdaWords l) := rfl

/-- The invariants of every word of a normalized output: nonempty, free of
whitespace and listed marks, lowercase-fixed, periods only before digits,
and a fixpoint of the number-word map, the article filter and the
contraction map. -/
def goodWord (w : List Char) : Prop :=
  w ≠ [] ∧ (∀ c ∈ w, isWs c = false ∧ lowerChar c = c ∧ c ∉ punctList) ∧
    periodsOkB w = true ∧ manualGet w = w ∧ w ∉ articlesL ∧ contractionGet w = w

theorem manual_values_good : ∀ p ∈ manualPairs,
    p.2 ≠ [] ∧ (∀ c ∈ p.2, isWs c = false ∧ lowerChar c = c ∧ c ∉ punctList) ∧
      periodsOkB p.2 = true ∧ manualGet p.2 = p.2 ∧ p.2 ∉ articlesL ∧
      contractionGet p.2 = p.2 := by decide

theorem contr_values_good : ∀ p ∈ contractionPairs,
    p.2 ≠ [] ∧ (∀ c ∈ p.2, isWs c = false ∧ lowerChar c = c ∧ c ∉ punctList) ∧
      periodsOkB p.2 = true ∧ manualGet p.2 = p.2 ∧ p.2 ∉ articlesL ∧
      contractionGet p.2 = p.2 := by decide

theorem processed_word_good (v : List Char) (hne : v ≠ [])
    (hchars : ∀ c ∈ v, isWs c = false ∧ lowerChar c = c ∧ c ∉ punctList)
    (hper : periodsOkB v = true) (hart : manualGet v ∉ articlesL) :
    goodWord (contractionGet (manualGet v)) := by
  cases hm : lookupL v manualPairs with
  | some val =>
      have hf := manual_values_good (v, val) (lookupL_mem v manualPairs val hm)
      have hne2 : val ≠ [] := hf.1
      have hch : ∀ c ∈ val, isWs c = false ∧ lowerChar c = c ∧ c ∉ punctList := hf.2.1
      have hpe : periodsOkB val = true := hf.2.2.1
      have hmg : manualGet val = val := hf.2.2.2.1
      have hna : val ∉ articlesL := hf.2.2.2.2.1
      have hcg2 : contractionGet val = val := hf.2.2.2.2.2
      have hmv : manualGet v = val := by rw [manualGet, hm]; rfl
      rw [hmv, hcg2]
      exact ⟨hne2, hch, hpe, hmg, hna, hcg2⟩
  | none =>
      have hmv : manualGet v = v := by rw [manualGet, hm]; rfl
      rw [hmv]
      rw [hmv] at hart
      cases hcg : lookupL v contractionPairs with
      | some cv =>
          have hf := contr_values_good (v, cv) (lookupL_mem v contractionPairs cv hcg)
          have hne2 : cv ≠ [] := hf.1
          have hch : ∀ c ∈ cv, isWs c = false ∧ lowerChar c = c ∧ c ∉ punctList := hf.2.1
          have hpe : periodsOkB cv = true := hf.2.2.1
          have hmg : manualGet cv = cv := hf.2.2.2.1
          have hna : cv ∉ articlesL := hf.2.2.2.2.1
          have hcg2 : contractionGet cv = cv := hf.2.2.2.2.2
          have hcv : contractionGet v = cv := by rw [contractionGet, hcg]; rfl
          rw [hcv]
          exact ⟨hne2, hch, hpe, hmg, hna, hcg2⟩
      | none =>
          have hcv : contractionGet v = v := by rw [contractionGet, hcg]; rfl
          rw [hcv]
          exact ⟨hne, hchars, hper, hmv, hart, hcv⟩

theorem pdaWords_good (l : List Char) (hmarks : ∀ c ∈ l, c ∉ punctList)
    (hper : periodsOkB l = true) : ∀ w ∈ pdaWords l, goodWord w := by
  intro w hw
  rw [pdaWords] at hw
  rcases List.mem_map.mp hw with ⟨v1, hv1, rfl⟩
  rw [List.mem_filter] at hv1
  rcases List.mem_map.mp hv1.1 with ⟨v, hv, rfl⟩
  have hgood := pySplit_chars (l.map lowerChar) v hv
  have hper2 : periodsOkB v = true :=
    periodsOkB_pySplit _ (periodsOkB_map_lower l hper) v hv
  apply processed_word_good v hgood.1
  · intro c hc
    rcases hgood.2 c hc with ⟨hws, hmem⟩
    rcases List.mem_map.mp hmem with ⟨c0, hc0, rfl⟩
    refine ⟨hws, lowerChar_idem c0, ?_⟩
    intro hmm
    exact hmarks c0 hc0 ((lowerChar_mark_iff c0).mp hmm)
  · exact hper2
  · simpa using hv1.2

theorem joinSp_good_char_facts (ws : List (List Char))
    (h : ∀ w ∈ ws, goodWord w) :
    ∀ c ∈ joinSp ws, lowerChar c = c ∧ c ∉ punctList ∧ nlChar c = c := by
  intro c hc
  rcases joinSp_chars ws c hc with h1 | ⟨w, hw, hcw⟩
  · subst h1
    exact ⟨by decide, by decide, by decide⟩
  · rcases (h w hw).2.1 c hcw with ⟨hws, hlow, hmark⟩
    refine ⟨hlow, hmark, ?_⟩
    rw [nlChar]
    have h10 : ¬ c = Char.ofNat 10 := by
      intro he
      rw [he] at hws
      simp [isWs] at hws
    have h9 : ¬ c = Char.ofNat 9 := by
      intro he
      rw [he] at hws
      simp [isWs] at hws
    rw [if_neg (by simp [h10, h9])]

theorem normalizeL_fix (ws : List (List Char)) (h : ∀ w ∈ ws, goodWord w) :
    normalizeL (joinSp ws) = joinSp ws := by
  have hwsgood : ∀ w ∈ ws, w ≠ [] ∧ ∀ c ∈ w, isWs c = false :=
    fun w hw => ⟨(h w hw).1, fun c hc => ((h w hw).2.1 c hc).1⟩
  have hchars := joinSp_good_char_facts ws h
  have hpre : precleanL (joinSp ws) = joinSp ws := by
    rw [precleanL]
    have hmap : (joinSp ws).map nlChar = joinSp ws := by
      have := List.map_congr_left (fun c hc => (hchars c hc).2.2)
      rw [this]
      exact List.map_id' _
    rw [hmap]
    apply stripWs_id_of_bounds
    · exact joinSp_head_nonws ws hwsgood
    · exact joinSp_getLast_nonws ws hwsgood
  have hpl : punctLoop (joinSp ws) = joinSp ws :=
    punctLoop_id_of_no_marks _ (fun c hc => (hchars c hc).2.1)
  have hper : periodsOkB (joinSp ws) = true :=
    periodsOkB_joinSp ws (fun w hw => (h w hw).2.2.1)
  have hps : periodStripAux 32 (joinSp ws) = joinSp ws :=
    periodStripAux_id_of_ok _ hper 32
  have hlow : (joinSp ws).map lowerChar = joinSp ws := by
    have := List.map_congr_left (fun c hc => (hchars c hc).1)
    rw [this]
    exact List.map_id' _
  have hsplit : pySplit ((joinSp ws).map lowerChar) = ws := by
    rw [hlow]
    exact pySplit_joinSp ws hwsgood
  have h1 : ws.map manualGet = ws := by
    have := List.map_congr_left (fun w hw => (h w hw).2.2.2.1)
    rw [this]
    exact List.map_id' _
  have h2 : ws.filter (fun w => decide (w ∉ articlesL)) = ws :=
    List.filter_eq_self.mpr (fun w hw => by simp [(h w hw).2.2.2.2.1])
  have h3 : ws.map contractionGet = ws := by
    have := List.map_congr_left (fun w hw => (h w hw).2.2.2.2.2)
    rw [this]
    exact List.map_id' _
  rw [normalizeL, hpre, processPunctuation, hpl, hps,
    processDigitArticle_eq_joinSp, pdaWords, hsplit, h1, h2, h3]

/-- A string of 33 periods: more removable periods than the period strip's
budget of 32. -/
def dots33 : String :=
  String.mk (List.replicate 33 '.')

/-- C8 (counterexample): normalization is not idempotent.  On a string of 33
periods, the period strip only removes its first 32 matches (the re.UNICODE
flag is passed as the count argument of re.sub), so one period survives the
first normalization and is removed by the second. -/
theorem C8_counterexample :
    vqaNormalize (vqaNormalize dots33) ≠ vqaNormalize dots33 ∧
      vqaNormalize dots33 = "." ∧ vqaNormalize (vqaNormalize dots33) = "" :=
  ⟨by decide, by decide, by decide⟩

/-- C8 (amended): the full normalization pipeline is idempotent on every
string for which the period-strip pass has at most 32 removable periods,
a removable period being a period not followed by a digit in the
punctuation-pass output (so that the period strip's budget of 32
replacements, re.UNICODE passed as the count argument of re.sub, is never
exhausted): normalize (normalize s) = normalize s. -/
theorem C8_idempotentBounded (s : String)
    (hcount : removableCount (punctLoop (precleanL s.data)) ≤ 32) :
    vqaNormalize (vqaNormalize s) = vqaNormalize s := by
  have hkeep : processPunctuation (precleanL s.data) =
      periodKeepFD (punctLoop (precleanL s.data)) :=
    periodStripAux_eq_keep _ 32 hcount
  have hper : periodsOkB (processPunctuation (precleanL s.data)) = true := by
    rw [hkeep]
    exact periodsOkB_periodKeepFD _
  have hmarks : ∀ c ∈ processPunctuation (precleanL s.data), c ∉ punctList := by
    intro c hc
    rw [processPunctuation] at hc
    exact punctLoop_no_marks _ c (mem_periodStripAux _ 32 c hc)
  have hgood : ∀ w ∈ pdaWords (processPunctuation (precleanL s.data)), goodWord w :=
    pdaWords_good _ hmarks hper
  refine congrArg String.mk ?_
  show normalizeL (normalizeL s.data) = normalizeL s.data
  have hrepr : normalizeL s.data =
      joinSp (pdaWords (processPunctuation (precleanL s.data))) := rfl
  rw [hrepr]
  exact normalizeL_fix _ hgood

/-- C8 (witness): the amended theorem applied at a concrete string with
fewer than 32 removable periods. -/
theorem C8_idempotentBounded_witness :
    (removableCount (punctLoop (precleanL "A dog.  DONT say 3.5!".data)) ≤ 32) ∧
      vqaNormalize (vqaNormalize "A dog.  DONT say 3.5!") =
        vqaNormalize "A dog.  DONT say 3.5!" :=
  ⟨by decide, C8_idempotentBounded "A dog.  DONT say 3.5!" (by decide)⟩

/-- Two character lists are equal up to the lengths of their space runs:
the same non-space characters in the same order, with nonempty runs of
spaces at the same places (of possibly different lengths). -/
inductive SpEq : List Char → List Char → Prop
  | nil : SpEq [] []
  | cons (c : Char) (hc : c ≠ ' ') {l m : List Char} :
      SpEq l m → SpEq (c :: l) (c :: m)
  | space (n1 n2 : ℕ) {l m : List Char} : SpEq l m →
      SpEq (List.replicate (n1 + 1) ' ' ++ l) (List.replicate (n2 + 1) ' ' ++ m)

theorem SpEq_refl (l : List Char) : SpEq l l := by
  induction l with
  | nil => exact SpEq.nil
  | cons c rest ih =>
      by_cases hc : c = ' '
      · subst hc
        exact SpEq.space 0 0 ih
      · exact SpEq.cons c hc ih

theorem SpEq_append {a b c d : List Char} (h1 : SpEq a b) (h2 : SpEq c d) :
    SpEq (a ++ c) (b ++ d) := by
  induction h1 with
  | nil => exact h2
  | cons x hx _ ih => exact SpEq.cons x hx ih
  | space n1 n2 _ ih =>
      rw [List.append_assoc, List.append_assoc]
      exact SpEq.space n1 n2 ih

theorem SpEq_reverse {l m : List Char} (h : SpEq l m) :
    SpEq l.reverse m.reverse := by
  induction h with
  | nil => exact SpEq.nil
  | cons c hc _ ih =>
      rw [List.reverse_cons, List.reverse_cons]
      exact SpEq_append ih (SpEq.cons c hc SpEq.nil)
  | space n1 n2 _ ih =>
      rw [List.reverse_append, List.reverse_append,
        List.reverse_replicate, List.reverse_replicate]
      have hsp : SpEq (List.replicate (n1 + 1) ' ') (List.replicate (n2 + 1) ' ') := by
        have := SpEq.space n1 n2 SpEq.nil
        simpa using this
      exact SpEq_append ih hsp

/-- Whether the list starts with the character `a`. -/
def headIs (a : Char) : List Char → Bool
  | c :: _ => decide (c = a)
  | [] => false

theorem SpEq_headIs {l m : List Char} (h : SpEq l m) (a : Char) :
    headIs a l = headIs a m := by
  cases h with
  | nil => rfl
  | cons c hc h2 => rfl
  | space n1 n2 h2 =>
      rw [List.replicate_succ, List.replicate_succ, List.cons_append, List.cons_append]
      rfl

theorem SpEq_headIsDigit {l m : List Char} (h : SpEq l m) :
    headIsDigit l = headIsDigit m := by
  cases h with
  | nil => rfl
  | cons c hc h2 => rfl
  | space n1 n2 h2 =>
      rw [List.replicate_succ, List.replicate_succ, List.cons_append, List.cons_append]
      rfl

theorem SpEq_headSpace {l m : List Char} (h : SpEq l m) :
    headIs ' ' l = headIs ' ' m := by
  cases h with
  | nil => rfl
  | cons c hc h2 => rfl
  | space n1 n2 h2 =>
      rw [List.replicate_succ, List.replicate_succ, List.cons_append, List.cons_append]
      rfl

theorem SpEq_map_nl {l m : List Char} (h : SpEq l m) :
    SpEq (l.map nlChar) (m.map nlChar) := by
  induction h with
  | nil => exact SpEq.nil
  | cons c hc _ ih =>
      rw [List.map_cons, List.map_cons]
      by_cases hnl : nlChar c = ' '
      · rw [hnl]
        exact SpEq.space 0 0 ih
      · exact SpEq.cons (nlChar c) hnl ih
  | space n1 n2 _ ih =>
      rw [List.map_append, List.map_append, List.map_replicate, List.map_replicate]
      have hsp : nlChar ' ' = ' ' := by decide
      rw [hsp]
      exact SpEq.space n1 n2 ih

theorem lowerChar_space_iff (c : Char) : lowerChar c = ' ' ↔ c = ' ' :=
  lowerChar_eq_iff c ' ' (by decide)

theorem SpEq_map_lower {l m : List Char} (h : SpEq l m) :
    SpEq (l.map lowerChar) (m.map lowerChar) := by
  induction h with
  | nil => exact SpEq.nil
  | cons c hc _ ih =>
      rw [List.map_cons, List.map_cons]
      exact SpEq.cons (lowerChar c) (fun he => hc ((lowerChar_space_iff c).mp he)) ih
  | space n1 n2 _ ih =>
      rw [List.map_append, List.map_append, List.map_replicate, List.map_replicate]
      have hsp : lowerChar ' ' = ' ' := by decide
      rw [hsp]
      exact SpEq.space n1 n2 ih

theorem dropWhile_replicate_space (k : ℕ) (l : List Char) :
    (List.replicate k ' ' ++ l).dropWhile (fun c => isWs c) =
      l.dropWhile (fun c => isWs c) := by
  induction k with
  | zero => rfl
  | succ k' ih =>
      rw [List.replicate_succ, List.cons_append, List.dropWhile_cons,
        if_pos (by decide)]
      exact ih

theorem SpEq_dropWhile {l m : List Char} (h : SpEq l m) :
    SpEq (l.dropWhile (fun c => isWs c)) (m.dropWhile (fun c => isWs c)) := by
  induction h with
  | nil => exact SpEq.nil
  | cons c hc h2 ih =>
      rw [List.dropWhile_cons, List.dropWhile_cons]
      by_cases hw : isWs c = true
      · rw [if_pos hw, if_pos hw]
        exact ih
      · rw [if_neg hw, if_neg hw]
        exact SpEq.cons c hc h2
  | space n1 n2 _ ih =>
      rw [dropWhile_replicate_space, dropWhile_replicate_space]
      exact ih

theorem SpEq_stripWs {l m : List Char} (h : SpEq l m) :
    SpEq (stripWs l) (stripWs m) := by
  rw [stripWs, stripWs]
  exact SpEq_reverse (SpEq_dropWhile (SpEq_reverse (SpEq_dropWhile h)))

theorem SpEq_precleanL {l m : List Char} (h : SpEq l m) :
    SpEq (precleanL l) (precleanL m) := by
  rw [precleanL, precleanL]
  exact SpEq_stripWs (SpEq_map_nl h)

/-- Whether the list starts with a comma followed by a digit. -/
def head2Is : List Char → Bool
  | d :: e :: _ => decide (d = ',') && e.isDigit
  | _ => false

theorem hasPair_cons (a b c : Char) (l : List Char) :
    hasPair a b (c :: l) = ((decide (c = a) && headIs b l) || hasPair a b l) := by
  cases l with
  | nil => simp [hasPair, headIs]
  | cons d rest => rfl

theorem hasDCD_cons (c : Char) (l : List Char) :
    hasDigitCommaDigit (c :: l) =
      ((c.isDigit && head2Is l) || hasDigitCommaDigit l) := by
  cases l with
  | nil => simp [hasDigitCommaDigit, head2Is]
  | cons d rest =>
      cases rest with
      | nil => simp [hasDigitCommaDigit, head2Is]
      | cons e rest2 => simp [hasDigitCommaDigit, head2Is, Bool.and_assoc]

theorem head2Is_cons (c : Char) (l : List Char) :
    head2Is (c :: l) = (decide (c = ',') && headIsDigit l) := by
  cases l with
  | nil => simp [head2Is, headIsDigit]
  | cons d rest => rfl

theorem SpEq_head2Is {l m : List Char} (h : SpEq l m) : head2Is l = head2Is m := by
  cases h with
  | nil => rfl
  | cons c hc h2 =>
      rw [head2Is_cons, head2Is_cons, SpEq_headIsDigit h2]
  | space n1 n2 h2 =>
      rw [List.replicate_succ, List.replicate_succ, List.cons_append, List.cons_append,
        head2Is_cons, head2Is_cons]
      simp

theorem hasPair_left_replicate (a : Char) (ha : a ≠ ' ') (k : ℕ) (l : List Char) :
    hasPair a ' ' (List.replicate (k + 1) ' ' ++ l) = hasPair a ' ' l := by
  induction k with
  | zero =>
      rw [List.replicate_succ]
      simp only [List.replicate_zero, List.cons_append, List.nil_append]
      rw [hasPair_cons]
      simp [Ne.symm ha]
  | succ k' ih =>
      rw [List.replicate_succ, List.cons_append, hasPair_cons, ih]
      simp [Ne.symm ha]

theorem hasPair_space_replicate (a : Char) (ha : a ≠ ' ') (k : ℕ) (l : List Char) :
    hasPair ' ' a (List.replicate (k + 1) ' ' ++ l) =
      (headIs a l || hasPair ' ' a l) := by
  induction k with
  | zero =>
      rw [List.replicate_succ]
      simp only [List.replicate_zero, List.cons_append, List.nil_append]
      rw [hasPair_cons]
      simp
  | succ k' ih =>
      rw [List.replicate_succ, List.cons_append, hasPair_cons, ih]
      have : headIs a (List.replicate (k' + 1) ' ' ++ l) = false := by
        rw [List.replicate_succ, List.cons_append, headIs]
        simp [Ne.symm ha]
      rw [this]
      simp

theorem hasDCD_replicate (k : ℕ) (l : List Char) :
    hasDigitCommaDigit (List.replicate (k + 1) ' ' ++ l) = hasDigitCommaDigit l := by
  induction k with
  | zero =>
      rw [List.replicate_succ]
      simp only [List.replicate_zero, List.cons_append, List.nil_append]
      rw [hasDCD_cons]
      simp
  | succ k' ih =>
      rw [List.replicate_succ, List.cons_append, hasDCD_cons, ih]
      simp

theorem SpEq_hasPair_right {l m : List Char} (h : SpEq l m) (a : Char)
    (ha : a ≠ ' ') : hasPair a ' ' l = hasPair a ' ' m := by
  induction h with
  | nil => rfl
  | cons c hc h2 ih =>
      rw [hasPair_cons, hasPair_cons, SpEq_headIs h2 ' ', ih]
  | space n1 n2 _ ih =>
      rw [hasPair_left_replicate a ha, hasPair_left_replicate a ha, ih]

theorem SpEq_hasPair_left {l m : List Char} (h : SpEq l m) (a : Char)
    (ha : a ≠ ' ') : hasPair ' ' a l = hasPair ' ' a m := by
  induction h with
  | nil => rfl
  | cons c hc h2 ih =>
      rw [hasPair_cons, hasPair_cons, ih]
      simp [hc]
  | space n1 n2 h2 ih =>
      rw [hasPair_space_replicate a ha, hasPair_space_replicate a ha, ih,
        SpEq_headIs h2 a]

theorem SpEq_hasDCD {l m : List Char} (h : SpEq l m) :
    hasDigitCommaDigit l = hasDigitCommaDigit m := by
  induction h with
  | nil => rfl
  | cons c hc h2 ih =>
      rw [hasDCD_cons, hasDCD_cons, SpEq_head2Is h2, ih]
  | space n1 n2 _ ih =>
      rw [hasDCD_replicate, hasDCD_replicate, ih]

theorem punct_ne_space : ∀ p ∈ punctList, p ≠ ' ' := by decide

theorem SpEq_punctCond {l m : List Char} (h : SpEq l m) (p : Char)
    (hp : p ∈ punctList) : punctCond p l = punctCond p m := by
  rw [punctCond, punctCond, SpEq_hasPair_right h p (punct_ne_space p hp),
    SpEq_hasPair_left h p (punct_ne_space p hp), SpEq_hasDCD h]

theorem headIs_map (f : Char → Char) (a : Char) (hf : ∀ c, f c = a ↔ c = a)
    (l : List Char) : headIs a (l.map f) = headIs a l := by
  cases l with
  | nil => rfl
  | cons c rest =>
      rw [List.map_cons, headIs, headIs]
      exact decide_eq_decide.mpr (hf c)

theorem hasPair_map (f : Char → Char) (a b : Char)
    (ha : ∀ c, f c = a ↔ c = a) (hb : ∀ c, f c = b ↔ c = b) (l : List Char) :
    hasPair a b (l.map f) = hasPair a b l := by
  induction l with
  | nil => rfl
  | cons c rest ih =>
      rw [List.map_cons, hasPair_cons, hasPair_cons, headIs_map f b hb, ih,
        decide_eq_decide.mpr (ha c)]

theorem head2Is_map_lower (l : List Char) :
    head2Is (l.map lowerChar) = head2Is l := by
  cases l with
  | nil => rfl
  | cons c rest =>
      rw [List.map_cons, head2Is_cons, head2Is_cons]
      have h1 : headIsDigit (rest.map lowerChar) = headIsDigit rest := by
        cases rest with
        | nil => rfl
        | cons d rest2 =>
            rw [List.map_cons, headIsDigit, headIsDigit, lowerChar_isDigit]
      rw [h1, decide_eq_decide.mpr (lowerChar_eq_iff c ',' (by decide))]

theorem hasDCD_map_lower (l : List Char) :
    hasDigitCommaDigit (l.map lowerChar) = hasDigitCommaDigit l := by
  induction l with
  | nil => rfl
  | cons c rest ih =>
      rw [List.map_cons, hasDCD_cons, hasDCD_cons, lowerChar_isDigit,
        head2Is_map_lower, ih]

theorem marks_not_letters : ∀ p ∈ punctList, ∀ q ∈ lowerPairs, q.1 ≠ p ∧ q.2 ≠ p := by
  decide

theorem punctCond_map_lower (p : Char) (hp : p ∈ punctList) (l : List Char) :
    punctCond p (l.map lowerChar) = punctCond p l := by
  rw [punctCond, punctCond,
    hasPair_map lowerChar p ' '
      (fun c => lowerChar_eq_iff c p (marks_not_letters p hp))
      (fun c => lowerChar_space_iff c) l,
    hasPair_map lowerChar ' ' p
      (fun c => lowerChar_space_iff c)
      (fun c => lowerChar_eq_iff c p (marks_not_letters p hp)) l,
    hasDCD_map_lower]

theorem filterMap_replicate_space (g : Char → Option Char)
    (hg : g ' ' = some ' ') (k : ℕ) :
    (List.replicate k ' ').filterMap g = List.replicate k ' ' := by
  induction k with
  | zero => rfl
  | succ k' ih =>
      rw [List.replicate_succ, List.filterMap_cons, hg, ih]

theorem SpEq_filterMap (g : Char → Option Char) (hg : g ' ' = some ' ')
    (hg2 : ∀ c, c ≠ ' ' → g c = none ∨ g c = some ' ' ∨ ∃ d, d ≠ ' ' ∧ g c = some d)
    {l m : List Char} (h : SpEq l m) :
    SpEq (l.filterMap g) (m.filterMap g) := by
  induction h with
  | nil => exact SpEq.nil
  | cons c hc _ ih =>
      rw [List.filterMap_cons, List.filterMap_cons]
      rcases hg2 c hc with h1 | h1 | ⟨d, hd, h1⟩ <;> rw [h1]
      · exact ih
      · exact SpEq.space 0 0 ih
      · exact SpEq.cons d hd ih
  | space n1 n2 _ ih =>
      rw [List.filterMap_append, List.filterMap_append,
        filterMap_replicate_space g hg, filterMap_replicate_space g hg]
      exact SpEq.space n1 n2 ih

theorem periodStripAux_zero (l : List Char) : periodStripAux 0 l = l := by
  cases l <;> rfl

theorem periodStripAux_replicate_space (k j : ℕ) (l : List Char) :
    periodStripAux k (List.replicate j ' ' ++ l) =
      List.replicate j ' ' ++ periodStripAux k l := by
  induction j generalizing k with
  | zero => rfl
  | succ j' ih =>
      cases k with
      | zero => rw [periodStripAux_zero, periodStripAux_zero]
      | succ k' =>
          rw [List.replicate_succ, List.cons_append, periodStripAux,
            if_neg (by simp), ih (Nat.succ k'), List.cons_append]

theorem SpEq_periodStripAux {l m : List Char} (h : SpEq l m) :
    ∀ k, SpEq (periodStripAux k l) (periodStripAux k m) := by
  induction h with
  | nil =>
      intro k
      rw [show periodStripAux k ([] : List Char) = [] from by cases k <;> rfl]
      exact SpEq.nil
  | cons c hc h2 ih =>
      rename_i l2 m2
      intro k
      cases k with
      | zero =>
          rw [periodStripAux_zero, periodStripAux_zero]
          exact SpEq.cons c hc h2
      | succ k' =>
          rw [periodStripAux, periodStripAux, SpEq_headIsDigit h2]
          by_cases hcond : (decide (c = '.') && !(headIsDigit m2)) = true
          · rw [if_pos hcond, if_pos hcond]
            exact ih k'
          · rw [if_neg hcond, if_neg hcond]
            exact SpEq.cons c hc (ih (Nat.succ k'))
  | space n1 n2 _ ih =>
      intro k
      rw [periodStripAux_replicate_space, periodStripAux_replicate_space]
      exact SpEq.space n1 n2 (ih k)

theorem rawSplit_cons_nonws (c : Char) (l : List Char) (hc : isWs c = false) :
    rawSplit (c :: l) = (c :: (rawSplit l).headD []) :: (rawSplit l).tail := by
  rw [rawSplit_cons, splitStep.eq_def, if_neg (by simp [hc])]
  rcases rawSplit l with _ | ⟨w, ps⟩ <;> rfl

theorem rawSplit_replicate_space (k : ℕ) (l : List Char) :
    rawSplit (List.replicate k ' ' ++ l) =
      List.replicate k ([] : List Char) ++ rawSplit l := by
  induction k with
  | zero => rfl
  | succ k' ih =>
      rw [List.replicate_succ, List.cons_append, rawSplit_cons, ih,
        splitStep.eq_def, if_pos (by decide), List.replicate_succ, List.cons_append]

theorem filter_replicate_nil_append (k : ℕ) (x : List (List Char)) :
    (List.replicate k ([] : List Char) ++ x).filter (fun w => !w.isEmpty) =
      x.filter (fun w => !w.isEmpty) := by
  induction k with
  | zero => rfl
  | succ k' ih =>
      rw [List.replicate_succ, List.cons_append, List.filter_cons_of_neg (by simp), ih]

theorem SpEq_split_invariants {l m : List Char} (h : SpEq l m) :
    pySplit l = pySplit m ∧ (rawSplit l).headD [] = (rawSplit m).headD [] ∧
      (rawSplit l = [] ↔ rawSplit m = []) := by
  induction h with
  | nil => exact ⟨rfl, rfl, Iff.rfl⟩
  | cons c hc h2 ih =>
      rename_i l2 m2
      by_cases hw : isWs c = true
      · have e1 : rawSplit (c :: l2) = [] :: rawSplit l2 := by
          rw [rawSplit_cons, splitStep.eq_def, if_pos hw]
        have e2 : rawSplit (c :: m2) = [] :: rawSplit m2 := by
          rw [rawSplit_cons, splitStep.eq_def, if_pos hw]
        refine ⟨?_, ?_, ?_⟩
        · rw [pySplit, pySplit, e1, e2, List.filter_cons_of_neg (by simp),
            List.filter_cons_of_neg (by simp)]
          exact ih.1
        · rw [e1, e2]
          rfl
        · rw [e1, e2]
          simp
      · have hwf : isWs c = false := by simpa using hw
        have e1 := rawSplit_cons_nonws c l2 hwf
        have e2 := rawSplit_cons_nonws c m2 hwf
        refine ⟨?_, ?_, ?_⟩
        · rw [pySplit, pySplit, e1, e2, List.filter_cons_of_pos (by simp),
            List.filter_cons_of_pos (by simp), ih.2.1]
          congr 1
          rcases hrl : rawSplit l2 with _ | ⟨w, ps⟩
          · have hrm : rawSplit m2 = [] := ih.2.2.mp hrl
            rw [hrm]
          · rcases hrm : rawSplit m2 with _ | ⟨w2, ps2⟩
            · exact absurd (ih.2.2.mpr hrm) (by simp [hrl])
            · have hww : w = w2 := by
                have h3 := ih.2.1
                rw [hrl, hrm] at h3
                exact h3
              subst hww
              have hps : ps.filter (fun w => !w.isEmpty) =
                  ps2.filter (fun w => !w.isEmpty) := by
                have h3 := ih.1
                rw [pySplit, pySplit, hrl, hrm] at h3
                by_cases hwe : w = []
                · subst hwe
                  rw [List.filter_cons_of_neg (by simp),
                    List.filter_cons_of_neg (by simp)] at h3
                  exact h3
                · rw [List.filter_cons_of_pos (by simpa using hwe),
                    List.filter_cons_of_pos (by simpa using hwe)] at h3
                  exact (List.cons.inj h3).2
              simp only [List.tail_cons]
              exact hps
        · rw [e1, e2]
          show c :: (rawSplit l2).headD [] = c :: (rawSplit m2).headD []
          rw [ih.2.1]
        · rw [e1, e2]
          simp
  | space n1 n2 h2 ih =>
      refine ⟨?_, ?_, ?_⟩
      · rw [pySplit, pySplit, rawSplit_replicate_space, rawSplit_replicate_space,
          filter_replicate_nil_append, filter_replicate_nil_append]
        exact ih.1
      · rw [rawSplit_replicate_space, rawSplit_replicate_space, List.replicate_succ,
          List.replicate_succ]
        rfl
      · rw [rawSplit_replicate_space, rawSplit_replicate_space]
        constructor <;> intro hx <;> simp [List.replicate_succ] at hx

theorem nlChar_lowerChar (c : Char) :
    nlChar (lowerChar c) = lowerChar (nlChar c) := by
  rcases lowerChar_cases c with h | h
  · rw [h]
    by_cases hnl : (c = '\n' || c = '\t') = true
    · have h2 : nlChar c = ' ' := by rw [nlChar, if_pos hnl]
      rw [h2]
      decide
    · have h2 : nlChar c = c := by rw [nlChar, if_neg hnl]
      rw [h2]
      exact h.symm
  · have hf : ∀ p ∈ lowerPairs, nlChar p.1 = p.1 ∧ nlChar p.2 = p.2 := by decide
    have h2 : nlChar (lowerChar c) = lowerChar c := (hf _ h).2
    have h1 : nlChar c = c := (hf _ h).1
    rw [h2, h1]

theorem map_nl_lower (l : List Char) :
    (l.map lowerChar).map nlChar = (l.map nlChar).map lowerChar := by
  rw [List.map_map, List.map_map]
  exact List.map_congr_left (fun c _ => nlChar_lowerChar c)

theorem dropWhile_ws_map_lower (l : List Char) :
    (l.map lowerChar).dropWhile (fun c => isWs c) =
      (l.dropWhile (fun c => isWs c)).map lowerChar := by
  induction l with
  | nil => rfl
  | cons c rest ih =>
      rw [List.map_cons, List.dropWhile_cons, List.dropWhile_cons, lowerChar_isWs]
      by_cases hws : isWs c = true
      · rw [if_pos hws, if_pos hws, ih]
      · rw [if_neg hws, if_neg hws, List.map_cons]

theorem stripWs_map_lower (l : List Char) :
    stripWs (l.map lowerChar) = (stripWs l).map lowerChar := by
  rw [stripWs, stripWs, dropWhile_ws_map_lower, ← List.map_reverse,
    dropWhile_ws_map_lower, ← List.map_reverse]

theorem punctCharF_map_lower_pt (l : List Char) (c : Char) :
    punctCharF (l.map lowerChar) c = punctCharF l c := by
  rw [punctCharF, punctCharF, punctCharSeen, punctCharSeen]
  by_cases h1 : c ∈ punctList
  · rw [if_pos h1, if_pos h1, punctCond_map_lower c h1]
  · rw [if_neg h1, if_neg h1]

theorem punctCharF_lower_comm (l : List Char) (c : Char) :
    punctCharF l (lowerChar c) = (punctCharF l c).map lowerChar := by
  by_cases h1 : c ∈ punctList
  · have hfix : ∀ p ∈ punctList, lowerChar p = p := by decide
    rw [punctCharF, punctCharF, punctCharSeen, punctCharSeen, hfix c h1,
      if_pos h1]
    by_cases h2 : punctCond c l = true
    · rw [if_pos h2]
      rfl
    · rw [if_neg h2]
      rfl
  · have h1b : lowerChar c ∉ punctList := fun hx => h1 ((lowerChar_mark_iff c).mp hx)
    rw [punctCharF, punctCharF, punctCharSeen, punctCharSeen, if_neg h1b, if_neg h1]
    rfl

theorem punctLoop_map_lower (l : List Char) :
    punctLoop (l.map lowerChar) = (punctLoop l).map lowerChar := by
  rw [punctLoop_eq_filterMap, punctLoop_eq_filterMap]
  calc (l.map lowerChar).filterMap (punctCharF (l.map lowerChar))
      = (l.map lowerChar).filterMap (punctCharF l) :=
        List.filterMap_congr (fun c _ => punctCharF_map_lower_pt l c)
    _ = l.filterMap (punctCharF l ∘ lowerChar) := List.filterMap_map _ _ _
    _ = l.filterMap (fun c => (punctCharF l c).map lowerChar) :=
        List.filterMap_congr (fun c _ => punctCharF_lower_comm l c)
    _ = (l.filterMap (punctCharF l)).map lowerChar := (List.map_filterMap _ _ _).symm

theorem headIsDigit_map_lower (l : List Char) :
    headIsDigit (l.map lowerChar) = headIsDigit l := by
  cases l with
  | nil => rfl
  | cons d rest => rw [List.map_cons, headIsDigit, headIsDigit, lowerChar_isDigit]

theorem periodStripAux_map_lower (k : ℕ) (l : List Char) :
    periodStripAux k (l.map lowerChar) = (periodStripAux k l).map lowerChar := by
  induction l generalizing k with
  | nil => cases k <;> rfl
  | cons c rest ih =>
      cases k with
      | zero => rw [periodStripAux_zero, periodStripAux_zero]
      | succ k' =>
          rw [List.map_cons, periodStripAux, periodStripAux, headIsDigit_map_lower,
            decide_eq_decide.mpr (lowerChar_eq_iff c '.' (by decide))]
          by_cases hcond : (decide (c = '.') && !(headIsDigit rest)) = true
          · rw [if_pos hcond, if_pos hcond, ih k']
          · rw [if_neg hcond, if_neg hcond, List.map_cons, ih (Nat.succ k')]

theorem processDigitArticle_map_lower (y : List Char) :
    processDigitArticle (y.map lowerChar) = processDigitArticle y := by
  rw [processDigitArticle_eq_joinSp, processDigitArticle_eq_joinSp, pdaWords, pdaWords]
  have hmm : (y.map lowerChar).map lowerChar = y.map lowerChar := by
    rw [List.map_map]
    exact List.map_congr_left (fun c _ => lowerChar_idem c)
  rw [hmm]

theorem normalizeL_map_lower (l : List Char) :
    normalizeL (l.map lowerChar) = normalizeL l := by
  have h1 : precleanL (l.map lowerChar) = (precleanL l).map lowerChar := by
    rw [precleanL, precleanL, map_nl_lower, stripWs_map_lower]
  rw [normalizeL, normalizeL, h1, processPunctuation, processPunctuation,
    punctLoop_map_lower, periodStripAux_map_lower, processDigitArticle_map_lower]

theorem normalizeL_SpEq {l m : List Char} (h : SpEq l m) :
    normalizeL l = normalizeL m := by
  have hpre : SpEq (precleanL l) (precleanL m) := SpEq_precleanL h
  have hpf : ∀ c, punctCharF (precleanL l) c = punctCharF (precleanL m) c := by
    intro c
    rw [punctCharF, punctCharF, punctCharSeen, punctCharSeen]
    by_cases h1 : c ∈ punctList
    · rw [if_pos h1, if_pos h1, SpEq_punctCond hpre c h1]
    · rw [if_neg h1, if_neg h1]
  have hpl : SpEq (punctLoop (precleanL l)) (punctLoop (precleanL m)) := by
    rw [punctLoop_eq_filterMap, punctLoop_eq_filterMap]
    have he : (precleanL m).filterMap (punctCharF (precleanL m)) =
        (precleanL m).filterMap (punctCharF (precleanL l)) :=
      List.filterMap_congr (fun c _ => (hpf c).symm)
    rw [he]
    apply SpEq_filterMap
    · rw [punctCharF, punctCharSeen, if_neg (by decide)]
    · intro c hc
      rw [punctCharF, punctCharSeen]
      by_cases h1 : c ∈ punctList
      · rw [if_pos h1]
        by_cases h2 : punctCond c (precleanL l) = true
        · rw [if_pos h2]
          exact Or.inl rfl
        · rw [if_neg h2]
          exact Or.inr (Or.inl rfl)
      · rw [if_neg h1]
        exact Or.inr (Or.inr ⟨c, hc, rfl⟩)
    · exact hpre
  have hps : SpEq (processPunctuation (precleanL l)) (processPunctuation (precleanL m)) := by
    rw [processPunctuation, processPunctuation]
    exact SpEq_periodStripAux hpl 32
  have hsp : pySplit ((processPunctuation (precleanL l)).map lowerChar) =
      pySplit ((processPunctuation (precleanL m)).map lowerChar) :=
    (SpEq_split_invariants (SpEq_map_lower hps)).1
  rw [normalizeL, normalizeL, processDigitArticle_eq_joinSp,
    processDigitArticle_eq_joinSp, pdaWords, pdaWords, hsp]

/-- C6 (counterexample): normalization is not invariant under insertion of
listed punctuation, nor under alteration of whitespace runs in general:
inserting a comma into cd changes the result, and replacing the space run
of `a,b ,` by a carriage return changes the per-mark delete-versus-space
decision and with it the result. -/
theorem C6_counterexample :
    vqaNormalize "cd" ≠ vqaNormalize "c,d" ∧
      vqaNormalize "a,b ," ≠ vqaNormalize (String.mk ['a', ',', 'b', '\r', ',']) :=
  ⟨by decide, by decide⟩

/-- C6 (amended): once normalization is applied, letter-case differences and
differences in the lengths of space runs never affect the result: whenever
two strings have the same characters up to case and up to the lengths of
their space runs, their normalizations are equal; in particular
normalize(Red.) = normalize(red) and normalize(don t) = normalize(dont)
(writing don t for the contraction with an apostrophe). -/
theorem C6_caseSpaceInvariance :
    (∀ s t : String, SpEq (s.data.map lowerChar) (t.data.map lowerChar) →
        vqaNormalize s = vqaNormalize t) ∧
      vqaNormalize "Red." = vqaNormalize "red" ∧
      vqaNormalize (String.mk ['d', 'o', 'n', apos, 't']) = vqaNormalize "dont" := by
  refine ⟨?_, by decide, by decide⟩
  intro s t h
  have h1 : normalizeL s.data = normalizeL t.data := by
    calc normalizeL s.data
        = normalizeL (s.data.map lowerChar) := (normalizeL_map_lower s.data).symm
      _ = normalizeL (t.data.map lowerChar) := normalizeL_SpEq h
      _ = normalizeL t.data := normalizeL_map_lower t.data
  exact congrArg String.mk h1

/-- C6 (witness): the amended theorem applied to a concrete pair differing
in case and in one space run. -/
theorem C6_caseSpaceInvariance_witness :
    SpEq ("Red car".data.map lowerChar) ("red  car".data.map lowerChar) ∧
      vqaNormalize "Red car" = vqaNormalize "red  car" := by
  have hsp : SpEq ("Red car".data.map lowerChar) ("red  car".data.map lowerChar) := by
    show SpEq ['r', 'e', 'd', ' ', 'c', 'a', 'r'] ['r', 'e', 'd', ' ', ' ', 'c', 'a', 'r']
    apply SpEq.cons 'r' (by decide)
    apply SpEq.cons 'e' (by decide)
    apply SpEq.cons 'd' (by decide)
    exact SpEq.space 0 1 (SpEq_refl ['c', 'a', 'r'])
  exact ⟨hsp, C6_caseSpaceInvariance.1 "Red car" "red  car" hsp⟩

end
